import Mathlib

deriving instance DecidableEq for Except

/-!
# Verification of `SOL/bounding.py` (`OptimalLinearBounder`)

Shallow embedding of the certified linear bounding module.  The Python module
computes affine lower/upper bounds for a scalar function over an axis-aligned
box by (1) sampling the box on a regular grid, (2) asking an external discrete
solver for a candidate affine upper bound of the sampled values, (3) certifying
the candidate cell-by-cell with Lipschitz margins, and (4) subdividing the
uncertified cells, until every cell is certified.

Numbers are embedded as exact rationals.  Because `_get_G_bound` (line 68)
raises for every region of dimension other than one, the certification engine
is only ever reachable in dimension one, where all of numpy's arithmetic
(including `np.linalg.norm` of a 1-vector, which is the absolute value, and
`x ** (1/1)`, which is `x`) is exact rational arithmetic; the engine is
embedded at that dimension.  The general-dimension pieces of the source
(the sign-combination table `subcube_offsets` and the grid sampler
`_sample_points_regularly`) are additionally embedded at general dimension.

The `while True` loop of `_bound_one_side` has no termination guarantee in the
source, so it is embedded with explicit fuel: `none` means the loop did not
return within the given number of iterations.
-/

/-- The assertion failures of `bounding.py`, one constructor per `assert`:
* `widthPrecondition`: line 179, message `Bounds must have positive width`;
* `npointsPrecondition`: line 35, `assert self.initial_number_of_points > 2`;
* `notEnoughPoints`: line 49, message `Not enough points to properly fill the region`;
* `gBoundDim`: line 68, message `Bounding G for dim > 1 is not implemented`;
* `needDimPlusOne`: line 91, message `Need at least dim + 1 point`. -/
inductive BErr where
  | widthPrecondition
  | npointsPrecondition
  | notEnoughPoints
  | gBoundDim
  | needDimPlusOne
deriving DecidableEq, Repr

/-- A working sample of the certification engine (one column of the parallel
arrays `points`, `cell_diams`, `point_act`, `point_grad` of
`_bound_one_side`, at dimension one): the cell's center `pt`, the cell's
diameter `diam`, and the (possibly sign-flipped) target value `act` and
gradient `grad` at the center. -/
structure Sample where
  pt : ℚ
  diam : ℚ
  act : ℚ
  grad : ℚ
deriving DecidableEq, Repr

/-- `np.max` of a list of rationals (`np.max` of a nonempty array; the source
never applies it to an empty array; the value on `[]` is an arbitrary `0`). -/
def maxList : List ℚ → ℚ
  | [] => 0
  | x :: xs => xs.foldl max x

/-- `np.linspace a b k`: `k` evenly spaced values from `a` to `b` inclusive
(line 53; the source only calls it with `k ≥ 2`).  Generic over the scalar
field: the engine uses it at `ℚ`, the general-dimension sampler at `ℝ`. -/
def linspace {K : Type} [LinearOrderedField K] (a b : K) (k : ℕ) : List K :=
  (List.range k).map fun i : ℕ => a + (i : K) * ((b - a) / ((k : K) - 1))

/-- `_sample_points_regularly` (lines 39-64) specialized to a one-dimensional
region `[lo, hi]`, which is the only dimension reachable in the source
(`_get_G_bound`, called first in `_bound_one_side`, asserts dimension 1).
In dimension one, `region_volume = hi - lo`, the reference cell side is
`(region_volume / sample_size) ** (1/1) = (hi - lo) / N`, and the cell
diameter `np.linalg.norm([side])` is `|side|`.  Returns the cell centers,
the (shared) cell diameter and the side-to-diameter ratio. -/
def samplePoints1 (lo hi : ℚ) (N : ℕ) : Except BErr (List ℚ × ℚ × ℚ) :=
  let s : ℚ := (hi - lo) / N
  let k : ℤ := ⌈(hi - lo) / s⌉
  if k ≤ 1 then .error .notEnoughPoints
  else
    let side : ℚ := (hi - lo) / k
    .ok (linspace (lo + side / 2) (hi - side / 2) k.toNat, |side|, side / |side|)

/-- `_get_G_bound` (lines 66-69): the geometric correction factor; returns `1`
for one-dimensional regions and raises
`Bounding G for dim > 1 is not implemented` otherwise. -/
def getGBound (bound : List (ℚ × ℚ)) : Except BErr ℚ :=
  if bound.length = 1 then .ok 1 else .error .gBoundDim

/-- `_find_discrete_upper_bound` (lines 71-77), one-dimensional: shift the
points by the region's center, call the external discrete solver, and undo the
shift on the returned intercept (`result[-1] -= (result[:-1] * center).sum()`).
The solver is an external collaborator, embedded as a function argument
returning `(slope, intercept)`. -/
def findDiscreteUpperBound (solver : List ℚ → List ℚ → ℚ → ℚ × ℚ)
    (eps lo hi : ℚ) (pts vals : List ℚ) : ℚ × ℚ :=
  let center : ℚ := (lo + hi) / 2
  let r := solver (pts.map fun p => p - center) vals eps
  (r.1, r.2 - r.1 * center)

/-- `bound_diff` of a sample (line 108): how much the candidate affine
function exceeds the sampled value at the cell center. -/
def boundDiff (c : ℚ × ℚ) (s : Sample) : ℚ :=
  c.1 * s.pt + c.2 - s.act

/-- The per-sample margin `min_diffs` (lines 110-118): minimum of the
value-Lipschitz margin `(1+G)·L1·(diam/2) - bound_diff` and the
gradient-Lipschitz margin
`|slope - grad|·(diam/2) + 0.5·L2·(diam/2)² - bound_diff`. -/
def margin (L1 L2 G : ℚ) (c : ℚ × ℚ) (s : Sample) : ℚ :=
  min ((1 + G) * L1 * (s.diam / 2) - boundDiff c s)
    (|c.1 - s.grad| * (s.diam / 2) + 1 / 2 * L2 * (s.diam / 2) ^ 2 - boundDiff c s)

/-- `holds` (line 119): a sample is certified iff its margin is strictly
below `eps`. -/
def certified (L1 L2 G eps : ℚ) (c : ℚ × ℚ) (s : Sample) : Bool :=
  margin L1 L2 G c s < eps

/-- The static configuration of one run of the engine loop of
`_bound_one_side`: solver, (possibly sign-flipped) target `g` and gradient
`g'`, the Lipschitz constants, the slack, the geometric factor `G`, the
side-to-diameter ratio from the sampler, and the region. -/
structure EngineCfg where
  solver : List ℚ → List ℚ → ℚ → ℚ × ℚ
  g : ℚ → ℚ
  g' : ℚ → ℚ
  L1 : ℚ
  L2 : ℚ
  eps : ℚ
  G : ℚ
  ratio : ℚ
  lo : ℚ
  hi : ℚ

/-- One child cell of a split sample (lines 138-143, dimension one): the
center is offset by `sign · (0.25 · side_to_diam_ratio) · parent_diam`, the
diameter is halved, and the target and gradient are evaluated at the new
center (lines 152-153). -/
def child (cfg : EngineCfg) (sign : ℚ) (s : Sample) : Sample :=
  let p : ℚ := s.pt + sign * (1 / 4 * cfg.ratio) * s.diam
  ⟨p, s.diam / 2, cfg.g p, cfg.g' p⟩

/-- The children of the uncertified samples (lines 133-156, dimension one).
`subcube_offsets` at dimension one is `[-1, +1]` (mask 0 has bit 0 unset,
mask 1 has it set), and the `np.reshape(·, [num_coords, -1])` flattening
lists all mask-0 children before all mask-1 children. -/
def subdivide (cfg : EngineCfg) (toSplit : List Sample) : List Sample :=
  toSplit.map (child cfg (-1)) ++ toSplit.map (child cfg 1)

/-- The candidate fit of one iteration (line 105): the discrete solver
applied to the current working set's centers and values. -/
def engineFit (cfg : EngineCfg) (samples : List Sample) : ℚ × ℚ :=
  findDiscreteUpperBound cfg.solver cfg.eps cfg.lo cfg.hi
    (samples.map fun s => s.pt) (samples.map fun s => s.act)

/-- One iteration of the `while True` loop of `_bound_one_side`
(lines 104-161): fit a candidate, and either return it with the intercept
inflated by the largest margin (all samples certified), or keep the certified
samples and subdivide the uncertified ones. -/
def engineStep (cfg : EngineCfg) (samples : List Sample) : (ℚ × ℚ) ⊕ List Sample :=
  let c := engineFit cfg samples
  if samples.all (certified cfg.L1 cfg.L2 cfg.G cfg.eps c) then
    .inl (c.1, c.2 + maxList (samples.map (margin cfg.L1 cfg.L2 cfg.G c)))
  else
    .inr (samples.filter (certified cfg.L1 cfg.L2 cfg.G cfg.eps c) ++
      subdivide cfg (samples.filter fun s => !certified cfg.L1 cfg.L2 cfg.G cfg.eps c s))

/-- The `while True` loop of `_bound_one_side`, with fuel: `none` means the
loop did not return within `fuel` iterations (the source has no iteration
cap). -/
def engineLoop (cfg : EngineCfg) : ℕ → List Sample → Option (ℚ × ℚ)
  | 0, _ => none
  | fuel + 1, samples =>
    match engineStep cfg samples with
    | .inl c => some c
    | .inr next => engineLoop cfg fuel next

/-- The sign-combination table `subcube_offsets` (lines 93-101) at general
dimension `n`: for each `subcube_mask` in `range(2 ** n)`, the offset sign on
axis `dim` is `1` when `subcube_mask & (1 << dim)` is nonzero and `-1`
otherwise.  (The source stores it transposed, `[coords, num_subcubes]`; here
it is the list of the `2 ^ n` per-mask sign vectors.) -/
def subcubeOffsets (n : ℕ) : List (List ℤ) :=
  (List.range (2 ^ n)).map fun mask =>
    (List.range n).map fun dim => if mask &&& (1 <<< dim) ≠ 0 then 1 else -1

/-- The sub-region represented by a cell in dimension one: the interval of
half-width `(side_to_diam_ratio · diam) / 2` around the center (the cell's
axis side is `ratio · diam`, and cells are stored as center + diameter +
shared ratio, never as explicit boxes). -/
def cellSet (ratio pt diam : ℚ) : Set ℚ :=
  Set.Icc (pt - ratio * diam / 2) (pt + ratio * diam / 2)

/-- The union of the sub-regions represented by the working samples. -/
def unionCells (ratio : ℚ) (samples : List Sample) : Set ℚ :=
  ⋃ s ∈ samples, cellSet ratio s.pt s.diam

/-- The working set after one iteration of the loop: unchanged on a terminal
iteration, otherwise the certified samples plus the children of the
uncertified ones. -/
def engineNext (cfg : EngineCfg) (samples : List Sample) : List Sample :=
  match engineStep cfg samples with
  | .inl _ => samples
  | .inr next => next

/-- Termination measure ingredient: the number of halvings a cell of diameter
`d` can still undergo while failing certification, bounded via
`⌊log₂ (L1·d/δ)⌋ + 1` where `δ` is the solver's strict slack margin.  Used
only in the termination proof, not by the embedded program. -/
def budget (L1 δ d : ℚ) : ℕ :=
  (Int.log 2 (L1 * d / δ) + 1).toNat

/-- Termination measure: each cell of diameter `d` contributes
`2 ^ (budget d + 1) - 1`, an upper bound on the number of loop-relevant nodes
of its subdivision tree. -/
def phiMeasure (L1 δ : ℚ) (samples : List Sample) : ℕ :=
  (samples.map fun s => 2 ^ (budget L1 δ s.diam + 1) - 1).sum

/-- All pick-one-from-each-list combinations: the embedding of the
`np.meshgrid` / flatten / transpose construction of lines 58-59, which
produces the Cartesian product of the per-axis grids (the flattening order of
`np.meshgrid` is not modelled; the cell multiset is). -/
def cartProd {α : Type} : List (List α) → List (List α)
  | [] => [[]]
  | g :: gs => g.flatMap fun x => (cartProd gs).map fun p => x :: p

/-- The reference cell side of `_sample_points_regularly` (lines 42-43) at
general dimension: `(region_volume / sample_size) ** (1/n)` with
`region_volume = Π (hi_i - lo_i)`. -/
noncomputable def refCellSide (bound : List (ℝ × ℝ)) (N : ℕ) : ℝ :=
  ((bound.map fun b => b.2 - b.1).prod / N) ^ ((bound.length : ℝ)⁻¹)

/-- `num_cells` on one axis (line 48): `ceil((hi - lo) / reference_cell_side)`. -/
noncomputable def axisCells (b : ℝ × ℝ) (s : ℝ) : ℤ :=
  ⌈(b.2 - b.1) / s⌉

/-- The actual cell side on one axis (line 50): `(hi - lo) / num_cells`. -/
noncomputable def axisSide (b : ℝ × ℝ) (s : ℝ) : ℝ :=
  (b.2 - b.1) / (axisCells b s : ℝ)

/-- `_sample_points_regularly` (lines 39-64) at general dimension, over exact
reals (the fractional power and the Euclidean norm are irrational in general,
so this general form is not executable; the reachable one-dimensional
instance is the executable `samplePoints1`).  Returns the cell centers (the
Cartesian product of the per-axis `linspace` grids), the shared cell diameter
`np.linalg.norm(cell_sides)`, and the side-to-diameter ratio vector. -/
noncomputable def samplePointsRegularly (bound : List (ℝ × ℝ)) (N : ℕ) :
    Except BErr (List (List ℝ) × ℝ × List ℝ) :=
  let s : ℝ := refCellSide bound N
  if (bound.map fun b => axisCells b s).all fun k => 1 < k then
    let sides : List ℝ := bound.map fun b => axisSide b s
    let grids : List (List ℝ) := bound.map fun b =>
      linspace (b.1 + axisSide b s / 2) (b.2 - axisSide b s / 2) (axisCells b s).toNat
    let diam : ℝ := Real.sqrt (sides.map fun x => x ^ 2).sum
    .ok (cartProd grids, diam, sides.map fun x => x / diam)
  else .error .notEnoughPoints

/-- The immutable configuration fixed by `OptimalLinearBounder.__init__`
(lines 8-37): target function, gradient, Lipschitz constants, slack,
initial sampling density, and the discrete solver (embedded as the resolved
solver function rather than a registry name; the registry lives in
`SOL/discrete_bounding.py`, outside this module). -/
structure OptimalLinearBounder where
  target_function : ℚ → ℚ
  gradient : ℚ → ℚ
  L1 : ℚ
  L2 : ℚ
  eps : ℚ
  initial_npoints : ℕ
  solver : List ℚ → List ℚ → ℚ → ℚ × ℚ

namespace OptimalLinearBounder

/-- The constructor's precondition on the sampling density (line 35):
`assert self.initial_number_of_points > 2`. -/
def initCheck (B : OptimalLinearBounder) : Except BErr Unit :=
  if 2 < B.initial_npoints then .ok () else .error .npointsPrecondition

/-- `_bound_one_side` (lines 79-161).  `_get_G_bound` is evaluated first and
restricts the region to dimension one; then the initial grid is sampled, the
target and gradient are evaluated at the centers (negated when computing the
lower bound, lines 87-89), the point-count assertion of line 91 is checked,
and the certify-and-subdivide loop runs.  When `upper = false` the returned
coefficients are negated (lines 123-124). -/
def boundOneSide (B : OptimalLinearBounder) (upper : Bool) (fuel : ℕ)
    (bound : List (ℚ × ℚ)) : Except BErr (Option (ℚ × ℚ)) :=
  match getGBound bound, bound with
  | .error e, _ => .error e
  | .ok G, [(lo, hi)] =>
    match samplePoints1 lo hi B.initial_npoints with
    | .error e => .error e
    | .ok (pts, diam, ratio) =>
      let g : ℚ → ℚ := fun x => if upper then B.target_function x else -(B.target_function x)
      let g' : ℚ → ℚ := fun x => if upper then B.gradient x else -(B.gradient x)
      if pts.length ≤ 1 then .error .needDimPlusOne
      else
        let samples : List Sample := pts.map fun p => ⟨p, diam, g p, g' p⟩
        match engineLoop ⟨B.solver, g, g', B.L1, B.L2, B.eps, G, ratio, lo, hi⟩ fuel samples with
        | none => .ok none
        | some c => .ok (some (if upper then c else (-c.1, -c.2)))
  | .ok _, _ => .error .gBoundDim

/-- The region precondition of `find_optimal_bounds` (line 179):
`all(b[1] - b[0] > -1e-5 for b in bound)`. -/
def widthOk (bound : List (ℚ × ℚ)) : Bool :=
  bound.all fun b => -(1 / 100000) < b.2 - b.1

/-- `find_optimal_bounds` (lines 163-184): check the width precondition, then
compute the lower bound (sign-flipped engine run) and the upper bound.
`none` means one of the engine loops did not return within `fuel`. -/
def findOptimalBounds (B : OptimalLinearBounder) (fuel : ℕ)
    (bound : List (ℚ × ℚ)) : Except BErr (Option ((ℚ × ℚ) × (ℚ × ℚ))) :=
  if widthOk bound then
    match B.boundOneSide false fuel bound with
    | .error e => .error e
    | .ok lower =>
      match B.boundOneSide true fuel bound with
      | .error e => .error e
      | .ok upper =>
        match lower, upper with
        | some l, some u => .ok (some (l, u))
        | _, _ => .ok none
  else .error .widthPrecondition

/-- Constructing the bounder and then requesting bounds: the constructor's
assertion (line 35) fires before any sampling can happen. -/
def constructAndBound (B : OptimalLinearBounder) (fuel : ℕ)
    (bound : List (ℚ × ℚ)) : Except BErr (Option ((ℚ × ℚ) × (ℚ × ℚ))) :=
  match B.initCheck with
  | .error e => .error e
  | .ok _ => B.findOptimalBounds fuel bound

end OptimalLinearBounder

/-- A discrete solver that ignores its input: used only to drive the embedded
program through its precondition checks in concrete runs. -/
def trivSolver : List ℚ → List ℚ → ℚ → ℚ × ℚ := fun _ _ _ => (0, 0)

/-- A concrete bounder (zero target, zero gradient) for concrete runs. -/
def trivB : OptimalLinearBounder :=
  ⟨fun _ => 0, fun _ => 0, 1, 1, 1 / 100, 4, trivSolver⟩

/-- `trivB` with `initial_npoints = 1` (which does not exceed 2). -/
def oneB : OptimalLinearBounder := { trivB with initial_npoints := 1 }

/-- The engine configuration of `trivB`'s upper-bound run on `[0, 1]`. -/
def trivCfg : EngineCfg :=
  ⟨trivSolver, fun _ => 0, fun _ => 0, 1, 1, 1 / 100, 1, 1, 0, 1⟩

/-- An adversarial discrete solver: always reports slope `1000`, with the
smallest intercept that makes the affine function a true upper bound of the
supplied values at the supplied points.  It satisfies the documented solver
contract (its coefficients upper-bound the supplied values, hence also
upper-bound them within any nonnegative `eps`), yet its slope wildly exceeds
the configured Lipschitz constant `L1 = 1`. -/
def steepSolver : List ℚ → List ℚ → ℚ → ℚ × ℚ :=
  fun pts vals _ => (1000, maxList (List.zipWith (fun v p => v - 1000 * p) vals pts))

/-- The zero function with `L1 = L2 = 1`, `eps = 1`, `initial_npoints = 4`,
driven by `steepSolver`. -/
def steepB : OptimalLinearBounder :=
  ⟨fun _ => 0, fun _ => 0, 1, 1, 1, 4, steepSolver⟩

/-- A discrete solver that answers the constant function `max(vals) - eps`:
a genuine upper bound of every supplied value within exactly `eps`, i.e. it
sits exactly at the allowed slack. -/
def stallSolver : List ℚ → List ℚ → ℚ → ℚ × ℚ :=
  fun _ vals eps => (0, maxList vals - eps)

/-- The zero function with `L1 = L2 = 0`, `eps = 1/100`,
`initial_npoints = 4`, driven by `stallSolver`. -/
def stallB : OptimalLinearBounder :=
  ⟨fun _ => 0, fun _ => 0, 0, 0, 1 / 100, 4, stallSolver⟩

/-- A discrete solver returning the constant function `max vals`: a true
(zero-slack) upper bound of the supplied values, with zero slope. -/
def maxSolver : List ℚ → List ℚ → ℚ → ℚ × ℚ := fun _ vals _ => (0, maxList vals)

/-- The zero function with `L1 = L2 = 1`, `eps = 1/100`,
`initial_npoints = 4`, driven by `maxSolver`. -/
def maxB : OptimalLinearBounder :=
  ⟨fun _ => 0, fun _ => 0, 1, 1, 1 / 100, 4, maxSolver⟩

/-- The `while True` loop of `_bound_one_side` returns within some finite
number of iterations (how the spec's termination property reads on the
fuel-indexed embedding). -/
def terminatesOn (B : OptimalLinearBounder) (upper : Bool)
    (bound : List (ℚ × ℚ)) : Prop :=
  ∃ fuel c, B.boundOneSide upper fuel bound = .ok (some c)

/-! ## Helper lemmas -/

theorem le_foldl_max (ys : List ℚ) (a : ℚ) : a ≤ ys.foldl max a := by
  induction ys generalizing a with
  | nil => exact le_rfl
  | cons y ys ih => exact le_trans (le_max_left a y) (ih (max a y))

theorem mem_le_foldl_max (ys : List ℚ) (a x : ℚ) (h : x ∈ ys) : x ≤ ys.foldl max a := by
  induction ys generalizing a with
  | nil => cases h
  | cons y ys ih =>
    rcases List.mem_cons.mp h with rfl | hx
    · exact le_trans (le_max_right a x) (le_foldl_max ys (max a x))
    · exact ih (max a y) hx

theorem maxList_ge {x : ℚ} {l : List ℚ} (h : x ∈ l) : x ≤ maxList l := by
  cases l with
  | nil => cases h
  | cons a ys =>
    rcases List.mem_cons.mp h with rfl | hx
    · exact le_foldl_max ys x
    · exact mem_le_foldl_max ys a x hx

/-- `_get_G_bound` only ever fails with the dimension error. -/
theorem getGBound_error {bound : List (ℚ × ℚ)} {e : BErr}
    (h : getGBound bound = .error e) : e = .gBoundDim := by
  unfold getGBound at h
  split at h
  · cases h
  · cases h; rfl

/-- The sampler only ever fails with its fill error. -/
theorem samplePoints1_error {lo hi : ℚ} {N : ℕ} {e : BErr}
    (h : samplePoints1 lo hi N = .error e) : e = .notEnoughPoints := by
  simp only [samplePoints1] at h
  split at h
  · cases h; rfl
  · cases h

/-- `_bound_one_side` can only fail with its own three assertions, never with
the width or constructor preconditions. -/
theorem boundOneSide_error_cases (B : OptimalLinearBounder) (upper : Bool) (fuel : ℕ)
    (bound : List (ℚ × ℚ)) (e : BErr)
    (h : B.boundOneSide upper fuel bound = .error e) :
    e = .gBoundDim ∨ e = .notEnoughPoints ∨ e = .needDimPlusOne := by
  unfold OptimalLinearBounder.boundOneSide at h
  split at h
  · rename_i e' heq
    cases h
    exact Or.inl (getGBound_error heq)
  · rename_i G lo hi heq
    split at h
    · rename_i e' hs
      cases h
      exact Or.inr (Or.inl (samplePoints1_error hs))
    · rename_i v hs
      obtain ⟨pts, diam, ratio⟩ := v
      simp only at h
      split at h
      · cases h
        exact Or.inr (Or.inr rfl)
      · split at h <;> cases h
  · cases h
    exact Or.inl rfl

/-! ## C3: the region-width precondition -/

/-- C3 (amended): `find_optimal_bounds` fails with the width precondition
error (`Bounds must have positive width`) exactly when some interval's width
is at most `-1e-5` — the check of line 179 is `b[1] - b[0] > -1e-5`, so
regions whose intervals all have width above `-1e-5` (which includes every
region of strictly positive widths, but also zero-width and slightly negative
ones) pass the check. -/
theorem c3_width_check (B : OptimalLinearBounder) (fuel : ℕ) (bound : List (ℚ × ℚ)) :
    B.findOptimalBounds fuel bound = .error .widthPrecondition ↔
      ∃ b ∈ bound, b.2 - b.1 ≤ -(1 / 100000) := by
  constructor
  · intro h
    unfold OptimalLinearBounder.findOptimalBounds at h
    split at h
    · exfalso
      split at h
      · rename_i hb
        cases h
        rcases boundOneSide_error_cases B false fuel bound _ hb with hc | hc | hc <;>
          exact absurd hc (by decide)
      · split at h
        · rename_i hb
          cases h
          rcases boundOneSide_error_cases B true fuel bound _ hb with hc | hc | hc <;>
            exact absurd hc (by decide)
        · split at h <;> cases h
    · rename_i hw
      simp only [OptimalLinearBounder.widthOk, List.all_eq_true, decide_eq_true_eq] at hw
      push_neg at hw
      obtain ⟨b, hb, hble⟩ := hw
      exact ⟨b, hb, by linarith⟩
  · rintro ⟨b, hb, hle⟩
    unfold OptimalLinearBounder.findOptimalBounds
    have hw : ¬ (OptimalLinearBounder.widthOk bound = true) := by
      simp only [OptimalLinearBounder.widthOk, List.all_eq_true, decide_eq_true_eq]
      push_neg
      exact ⟨b, hb, by linarith⟩
    rw [if_neg hw]

/-- C3 witness: a region of width `-1` fails with the width error, and a
region of positive width does not. -/
theorem c3_width_check_witness :
    trivB.findOptimalBounds 5 [((1 : ℚ), (0 : ℚ))] = .error .widthPrecondition ∧
      ¬ trivB.findOptimalBounds 5 [((0 : ℚ), (1 : ℚ))] = .error .widthPrecondition := by
  constructor
  · exact (c3_width_check trivB 5 [((1 : ℚ), (0 : ℚ))]).mpr
      ⟨(1, 0), by decide, by norm_num⟩
  · intro h
    obtain ⟨b, hb, hle⟩ := (c3_width_check trivB 5 [((0 : ℚ), (1 : ℚ))]).mp h
    rcases List.mem_singleton.mp hb with rfl
    norm_num at hle

/-- C3 counterexample: the region `[(0, 0)]` has an interval of non-positive
width, yet `find_optimal_bounds` does *not* fail with the width precondition
error (`0 - 0 > -1e-5` passes the check of line 179; the run fails later, in
the sampler). -/
theorem c3_counterexample :
    ((0 : ℚ) - 0 ≤ 0) ∧
      trivB.findOptimalBounds 5 [((0 : ℚ), (0 : ℚ))] ≠ .error .widthPrecondition :=
  ⟨by norm_num, by with_unfolding_all decide⟩

/-! ## C9: the geometric correction factor -/

/-- C9 (amended): `_get_G_bound` returns exactly `1` for every
one-dimensional region and fails with the unimplemented-case error for every
region of any other dimension; consequently every `find_optimal_bounds` call
on a region with more than one interval *that passes the width precondition*
fails with that error (a region with more than one interval that violates the
width precondition fails with the width error instead). -/
theorem c9_g_bound_dim :
    (∀ lohi : ℚ × ℚ, getGBound [lohi] = .ok 1) ∧
    (∀ bound : List (ℚ × ℚ), bound.length ≠ 1 → getGBound bound = .error .gBoundDim) ∧
    (∀ (B : OptimalLinearBounder) (fuel : ℕ) (bound : List (ℚ × ℚ)),
      1 < bound.length → OptimalLinearBounder.widthOk bound = true →
      B.findOptimalBounds fuel bound = .error .gBoundDim) := by
  refine ⟨fun lohi => by simp [getGBound], fun bound hb => by simp [getGBound, hb], ?_⟩
  intro B fuel bound hlen hw
  have hg : getGBound bound = .error .gBoundDim := by
    simp [getGBound, Nat.ne_of_gt hlen]
  have hbos : ∀ u, B.boundOneSide u fuel bound = .error .gBoundDim := by
    intro u
    unfold OptimalLinearBounder.boundOneSide
    rw [hg]
  unfold OptimalLinearBounder.findOptimalBounds
  rw [if_pos hw, hbos false]

/-- C9 witness: a two-dimensional region with positive widths fails with the
unimplemented-case error. -/
theorem c9_g_bound_dim_witness :
    trivB.findOptimalBounds 5 [((0 : ℚ), (1 : ℚ)), ((0 : ℚ), (1 : ℚ))] = .error .gBoundDim :=
  c9_g_bound_dim.2.2 trivB 5 [((0 : ℚ), (1 : ℚ)), ((0 : ℚ), (1 : ℚ))] (by decide)
    (by with_unfolding_all decide)

/-- C9 counterexample: a region with more than one interval need not fail
with the unimplemented-case error — when it also violates the width
precondition, the width error of line 179 fires first. -/
theorem c9_counterexample :
    1 < ([((1 : ℚ), (0 : ℚ)), ((0 : ℚ), (1 : ℚ))] : List (ℚ × ℚ)).length ∧
      trivB.findOptimalBounds 5 [((1 : ℚ), (0 : ℚ)), ((0 : ℚ), (1 : ℚ))] ≠ .error .gBoundDim :=
  ⟨by decide, by with_unfolding_all decide⟩

/-! ## C10: the insufficient-points failure -/

/-- C10 (amended): constructing the bounder with `initial_npoints ≤ 2` (in
particular `initial_npoints = 1`) fails at construction time with the
constructor's precondition (`assert self.initial_number_of_points > 2`,
line 35), for any requested region; the grid-construction error of line 49 is
never reached. -/
theorem c10_constructor_guard (B : OptimalLinearBounder) (fuel : ℕ)
    (bound : List (ℚ × ℚ)) (h : B.initial_npoints ≤ 2) :
    B.constructAndBound fuel bound = .error .npointsPrecondition := by
  unfold OptimalLinearBounder.constructAndBound OptimalLinearBounder.initCheck
  rw [if_neg (by omega)]

/-- C10 witness: `initial_npoints = 1` on region `[0, 1]`. -/
theorem c10_constructor_guard_witness :
    oneB.constructAndBound 5 [((0 : ℚ), (1 : ℚ))] = .error .npointsPrecondition :=
  c10_constructor_guard oneB 5 [((0 : ℚ), (1 : ℚ))] (by decide)

/-- C10 counterexample: with `initial_npoints = 1` and region `[0, 1]` the
failure is *not* the grid-construction error
(`Not enough points to properly fill the region`): the constructor's
assertion fires first. -/
theorem c10_counterexample :
    oneB.initial_npoints = 1 ∧
      oneB.constructAndBound 5 [((0 : ℚ), (1 : ℚ))] ≠ .error .notEnoughPoints :=
  ⟨rfl, by with_unfolding_all decide⟩

/-! ## C2: sign symmetry of the lower bound -/

/-- C2: the upper bound of `−f` is, coefficient-wise and exactly, the
negation of the lower bound of `f`: the lower-bound run negates the sampled
values and gradients (lines 87-89 and 154-156), which is the same engine run
as the upper-bound run on `−f`, and negates the returned coefficients
(lines 123-124). -/
theorem c2_sign_symmetry (B : OptimalLinearBounder) (fuel : ℕ) (bound : List (ℚ × ℚ)) :
    ({ B with target_function := fun x => -(B.target_function x),
              gradient := fun x => -(B.gradient x) } : OptimalLinearBounder).boundOneSide
        true fuel bound
      = (B.boundOneSide false fuel bound).map (Option.map fun c => (-c.1, -c.2)) := by
  unfold OptimalLinearBounder.boundOneSide
  rcases hg : getGBound bound with e | G
  · simp only [hg, Except.map]
  · simp only [hg]
    match bound with
    | [] => simp [Except.map]
    | [(lo, hi)] =>
      rcases hs : samplePoints1 lo hi B.initial_npoints with e | ⟨pts, diam, ratio⟩
      · simp only [hs, Except.map]
      · simp only [hs]
        by_cases hlen : pts.length ≤ 1
        · simp only [if_pos hlen, Except.map]
        · simp only [if_neg hlen, Bool.true_eq, if_true, if_false]
          rcases hl : engineLoop
              ⟨B.solver, fun x => -(B.target_function x), fun x => -(B.gradient x),
                B.L1, B.L2, B.eps, G, ratio, lo, hi⟩ fuel
              (pts.map fun p => ⟨p, diam, -(B.target_function p), -(B.gradient p)⟩) with
            _ | c
          · simp [hl, Except.map, Option.map]
          · simp [hl, Except.map, Option.map]
    | (b₁ :: b₂ :: rest) => simp [Except.map]

/-! ## Engine-step helper lemmas -/

theorem engineStep_all_certified (cfg : EngineCfg) (samples : List Sample)
    (h : ∀ s ∈ samples,
      certified cfg.L1 cfg.L2 cfg.G cfg.eps (engineFit cfg samples) s = true) :
    engineStep cfg samples = .inl ((engineFit cfg samples).1,
      (engineFit cfg samples).2
        + maxList (samples.map (margin cfg.L1 cfg.L2 cfg.G (engineFit cfg samples)))) := by
  unfold engineStep
  rw [if_pos (List.all_eq_true.mpr h)]

theorem engineStep_not_all_certified (cfg : EngineCfg) (samples : List Sample)
    (h : ¬ ∀ s ∈ samples,
      certified cfg.L1 cfg.L2 cfg.G cfg.eps (engineFit cfg samples) s = true) :
    engineStep cfg samples = .inr
      (samples.filter (certified cfg.L1 cfg.L2 cfg.G cfg.eps (engineFit cfg samples)) ++
        subdivide cfg (samples.filter fun s =>
          !certified cfg.L1 cfg.L2 cfg.G cfg.eps (engineFit cfg samples) s)) := by
  unfold engineStep
  rw [if_neg (fun hall => h (List.all_eq_true.mp hall))]

theorem engineStep_inr_inv (cfg : EngineCfg) (samples next : List Sample)
    (h : engineStep cfg samples = .inr next) :
    next = samples.filter (certified cfg.L1 cfg.L2 cfg.G cfg.eps (engineFit cfg samples)) ++
      subdivide cfg (samples.filter fun s =>
        !certified cfg.L1 cfg.L2 cfg.G cfg.eps (engineFit cfg samples) s) := by
  simp only [engineStep] at h
  split at h
  · cases h
  · cases h; rfl

theorem engineLoop_succ (cfg : EngineCfg) (fuel : ℕ) (samples : List Sample) :
    engineLoop cfg (fuel + 1) samples
      = match engineStep cfg samples with
        | .inl c => some c
        | .inr next => engineLoop cfg fuel next := rfl

/-! ## C4: certification step semantics -/

/-- C4: in one iteration of the engine, each sample's margin is
`min((1+G)·L1·r − bound_diff, ‖slope − grad‖·r + 0.5·L2·r² − bound_diff)`
with `r = diam/2` and `bound_diff = slope·pt + intercept − value`; a sample is
certified iff its margin is strictly below `eps`; if every sample is
certified the loop terminates returning the fitted slope and the fitted
intercept plus the largest margin; otherwise it recurses on the retained and
subdivided working set. -/
theorem c4_certification_step (cfg : EngineCfg) (samples : List Sample) (fuel : ℕ)
    (hne : samples ≠ []) :
    let c := engineFit cfg samples
    let m : Sample → ℚ := fun s =>
      min ((1 + cfg.G) * cfg.L1 * (s.diam / 2) - (c.1 * s.pt + c.2 - s.act))
        (|c.1 - s.grad| * (s.diam / 2) + 1 / 2 * cfg.L2 * (s.diam / 2) ^ 2
          - (c.1 * s.pt + c.2 - s.act))
    (∀ s ∈ samples, certified cfg.L1 cfg.L2 cfg.G cfg.eps c s = true ↔ m s < cfg.eps) ∧
    ((∀ s ∈ samples, m s < cfg.eps) →
      engineLoop cfg (fuel + 1) samples = some (c.1, c.2 + maxList (samples.map m))) ∧
    ((∃ s ∈ samples, ¬ m s < cfg.eps) →
      engineLoop cfg (fuel + 1) samples = engineLoop cfg fuel (engineNext cfg samples)) := by
  intro c m
  have hm : m = margin cfg.L1 cfg.L2 cfg.G c := by
    funext s
    simp only [m, margin, boundDiff]
  refine ⟨?_, ?_, ?_⟩
  · intro s _
    rw [hm]
    simp [certified]
  · intro hall
    have hstep := engineStep_all_certified cfg samples (fun s hs => by
      simp [certified, hm ▸ hall s hs])
    rw [engineLoop_succ, hstep, hm]
  · rintro ⟨s, hs, hnot⟩
    have hnotall : ¬ ∀ s ∈ samples,
        certified cfg.L1 cfg.L2 cfg.G cfg.eps (engineFit cfg samples) s = true := by
      intro hall
      exact hnot (by simpa [certified, hm] using hall s hs)
    have hstep := engineStep_not_all_certified cfg samples hnotall
    rw [engineLoop_succ, hstep]
    unfold engineNext
    rw [hstep]

/-- C4 witness: a concrete single-sample iteration. -/
theorem c4_certification_step_witness :
    ([(⟨1/2, 1, 0, 0⟩ : Sample)] : List Sample) ≠ [] ∧
      (let cfg : EngineCfg := ⟨trivSolver, fun _ => 0, fun _ => 0, 1, 1, 1, 1, 1, 0, 1⟩
       let c := engineFit cfg [⟨1/2, 1, 0, 0⟩]
       let m : Sample → ℚ := fun s =>
         min ((1 + cfg.G) * cfg.L1 * (s.diam / 2) - (c.1 * s.pt + c.2 - s.act))
           (|c.1 - s.grad| * (s.diam / 2) + 1 / 2 * cfg.L2 * (s.diam / 2) ^ 2
             - (c.1 * s.pt + c.2 - s.act))
       (∀ s ∈ [(⟨1/2, 1, 0, 0⟩ : Sample)],
          certified cfg.L1 cfg.L2 cfg.G cfg.eps c s = true ↔ m s < cfg.eps) ∧
       ((∀ s ∈ [(⟨1/2, 1, 0, 0⟩ : Sample)], m s < cfg.eps) →
          engineLoop cfg (0 + 1) [⟨1/2, 1, 0, 0⟩]
            = some (c.1, c.2 + maxList ([(⟨1/2, 1, 0, 0⟩ : Sample)].map m))) ∧
       ((∃ s ∈ [(⟨1/2, 1, 0, 0⟩ : Sample)], ¬ m s < cfg.eps) →
          engineLoop cfg (0 + 1) [⟨1/2, 1, 0, 0⟩]
            = engineLoop cfg 0 (engineNext cfg [⟨1/2, 1, 0, 0⟩]))) :=
  ⟨by decide, c4_certification_step ⟨trivSolver, fun _ => 0, fun _ => 0, 1, 1, 1, 1, 1, 0, 1⟩
    [⟨1/2, 1, 0, 0⟩] 0 (by decide)⟩

/-! ## Offsets-table lemmas -/

theorem subcubeOffsets_entry (mask dim : ℕ) :
    (if mask &&& (1 <<< dim) ≠ 0 then (1 : ℤ) else -1)
      = if mask.testBit dim then 1 else -1 := by
  rw [Nat.one_shiftLeft, Nat.and_two_pow]
  cases h : mask.testBit dim <;> simp [h, (Nat.two_pow_pos dim).ne']

theorem subcubeOffsets_succ (n : ℕ) :
    subcubeOffsets (n + 1)
      = (subcubeOffsets n).map (fun v => v ++ [(-1 : ℤ)])
        ++ (subcubeOffsets n).map (fun v => v ++ [(1 : ℤ)]) := by
  unfold subcubeOffsets
  have h2 : 2 ^ (n + 1) = 2 ^ n + 2 ^ n := by ring
  rw [h2, List.range_add (2 ^ n) (2 ^ n), List.map_append, List.map_map, List.map_map,
    List.map_map]
  congr 1
  · refine List.map_congr_left fun mask hmask => ?_
    have hlt : mask < 2 ^ n := List.mem_range.mp hmask
    simp only [Function.comp]
    rw [List.range_succ, List.map_append]
    congr 1
    simp only [List.map_cons, List.map_nil, List.cons.injEq, and_true]
    rw [subcubeOffsets_entry, Nat.testBit_lt_two_pow hlt]
    rfl
  · refine List.map_congr_left fun mask hmask => ?_
    have hlt : mask < 2 ^ n := List.mem_range.mp hmask
    simp only [Function.comp]
    rw [List.range_succ, List.map_append]
    congr 1
    · refine List.map_congr_left fun dim hdim => ?_
      have hdlt : dim < n := List.mem_range.mp hdim
      rw [subcubeOffsets_entry, subcubeOffsets_entry,
        Nat.testBit_two_pow_add_gt hdlt]
    · simp only [List.map_cons, List.map_nil, List.cons.injEq, and_true]
      rw [subcubeOffsets_entry, Nat.testBit_two_pow_add_eq,
        Nat.testBit_lt_two_pow hlt]
      rfl

theorem count_map_concat (S : List (List ℤ)) (l : List ℤ) (a : ℤ) :
    (S.map fun v => v ++ [a]).count (l ++ [a]) = S.count l := by
  induction S with
  | nil => rfl
  | cons v S ih =>
    simp only [List.map_cons, List.count_cons, ih]
    congr 1
    by_cases h : l = v
    · simp [h]
    · simp [h, List.append_cancel_right_eq]

theorem subcubeOffsets_count (n : ℕ) (σ : List ℤ) (hlen : σ.length = n)
    (hsign : ∀ x ∈ σ, x = 1 ∨ x = -1) :
    (subcubeOffsets n).count σ = 1 := by
  induction n generalizing σ with
  | zero =>
    rw [List.length_eq_zero.mp hlen]
    rfl
  | succ n ih =>
    rcases List.eq_nil_or_concat σ with rfl | ⟨l, x, rfl⟩
    · cases hlen
    · rw [List.concat_eq_append] at hlen hsign ⊢
      have hlen' : l.length = n := by simpa using hlen
      have hsign' : ∀ y ∈ l, y = 1 ∨ y = -1 := fun y hy => hsign y (by simp [hy])
      have hx : x = 1 ∨ x = -1 := hsign x (by simp)
      have hzero : ∀ a b : ℤ, a ≠ b →
          ((subcubeOffsets n).map fun v => v ++ [a]).count (l ++ [b]) = 0 := by
        intro a b hab
        rw [List.count_eq_zero]
        intro hmem
        obtain ⟨v, _, hv⟩ := List.mem_map.mp hmem
        rw [← List.concat_eq_append, ← List.concat_eq_append] at hv
        exact hab (List.concat_inj.mp hv).2
      rw [subcubeOffsets_succ, List.count_append]
      rcases hx with rfl | rfl
      · rw [hzero (-1) 1 (by decide), count_map_concat, ih l hlen' hsign']
      · rw [hzero 1 (-1) (by decide), count_map_concat, ih l hlen' hsign']

/-! ## C5: the subdivision step -/

/-- C5: in a non-terminal iteration every certified sample is retained
unchanged, and every uncertified sample is replaced by exactly `2 ^ n`
children, one per sign combination (the `subcube_offsets` table holds exactly
one sign vector per combination, `[-1], [1]` at the reachable dimension one),
with child centers offset by `± ¼ · side_ratio · parent_diam`, child diameter
exactly half the parent's, and the target and gradient freshly evaluated at
each child center. -/
theorem c5_subdivision_step :
    (∀ n : ℕ, (subcubeOffsets n).length = 2 ^ n) ∧
    (∀ (n : ℕ) (σ : List ℤ), σ.length = n → (∀ x ∈ σ, x = 1 ∨ x = -1) →
      (subcubeOffsets n).count σ = 1) ∧
    subcubeOffsets 1 = [[-1], [1]] ∧
    (∀ (cfg : EngineCfg) (samples next : List Sample),
      engineStep cfg samples = .inr next →
      next = samples.filter (certified cfg.L1 cfg.L2 cfg.G cfg.eps (engineFit cfg samples))
        ++ (((samples.filter fun s =>
              !certified cfg.L1 cfg.L2 cfg.G cfg.eps (engineFit cfg samples) s).map fun s =>
                Sample.mk (s.pt - 1 / 4 * cfg.ratio * s.diam) (s.diam / 2)
                  (cfg.g (s.pt - 1 / 4 * cfg.ratio * s.diam))
                  (cfg.g' (s.pt - 1 / 4 * cfg.ratio * s.diam)))
          ++ ((samples.filter fun s =>
              !certified cfg.L1 cfg.L2 cfg.G cfg.eps (engineFit cfg samples) s).map fun s =>
                Sample.mk (s.pt + 1 / 4 * cfg.ratio * s.diam) (s.diam / 2)
                  (cfg.g (s.pt + 1 / 4 * cfg.ratio * s.diam))
                  (cfg.g' (s.pt + 1 / 4 * cfg.ratio * s.diam))))) := by
  refine ⟨fun n => by simp [subcubeOffsets], subcubeOffsets_count, by decide, ?_⟩
  intro cfg samples next h
  rw [engineStep_inr_inv cfg samples next h]
  congr 1
  unfold subdivide
  congr 1
  · refine List.map_congr_left fun s _ => ?_
    simp only [child]
    rw [show s.pt + (-1) * (1 / 4 * cfg.ratio) * s.diam
        = s.pt - 1 / 4 * cfg.ratio * s.diam by ring]
  · refine List.map_congr_left fun s _ => ?_
    simp only [child]
    rw [show s.pt + 1 * (1 / 4 * cfg.ratio) * s.diam
        = s.pt + 1 / 4 * cfg.ratio * s.diam by ring]

/-- C5 witness: a concrete non-terminal step splitting one cell into its two
children. -/
theorem c5_subdivision_step_witness :
    engineStep ⟨stallSolver, fun _ => 0, fun _ => 0, 0, 0, 1 / 100, 1, 1, 0, 1⟩
        [⟨1/2, 1, 0, 0⟩]
      = .inr [⟨1/4, 1/2, 0, 0⟩, ⟨3/4, 1/2, 0, 0⟩] ∧
    ([⟨1/4, 1/2, 0, 0⟩, ⟨3/4, 1/2, 0, 0⟩] : List Sample)
      = ([⟨1/2, 1, 0, 0⟩] : List Sample).filter
          (certified 0 0 1 (1 / 100)
            (engineFit ⟨stallSolver, fun _ => 0, fun _ => 0, 0, 0, 1 / 100, 1, 1, 0, 1⟩
              [⟨1/2, 1, 0, 0⟩]))
        ++ (((([⟨1/2, 1, 0, 0⟩] : List Sample).filter fun s =>
              !certified 0 0 1 (1 / 100)
                (engineFit ⟨stallSolver, fun _ => 0, fun _ => 0, 0, 0, 1 / 100, 1, 1, 0, 1⟩
                  [⟨1/2, 1, 0, 0⟩]) s).map fun s =>
                Sample.mk (s.pt - 1 / 4 * 1 * s.diam) (s.diam / 2) 0 0)
          ++ ((([⟨1/2, 1, 0, 0⟩] : List Sample).filter fun s =>
              !certified 0 0 1 (1 / 100)
                (engineFit ⟨stallSolver, fun _ => 0, fun _ => 0, 0, 0, 1 / 100, 1, 1, 0, 1⟩
                  [⟨1/2, 1, 0, 0⟩]) s).map fun s =>
                Sample.mk (s.pt + 1 / 4 * 1 * s.diam) (s.diam / 2) 0 0)) := by
  constructor
  · with_unfolding_all decide
  · have h := (c5_subdivision_step.2.2.2)
      ⟨stallSolver, fun _ => 0, fun _ => 0, 0, 0, 1 / 100, 1, 1, 0, 1⟩
      [⟨1/2, 1, 0, 0⟩] [⟨1/4, 1/2, 0, 0⟩, ⟨3/4, 1/2, 0, 0⟩]
      (by with_unfolding_all decide)
    simpa using h

/-! ## Coverage lemmas -/

theorem mem_unionCells {ratio : ℚ} {samples : List Sample} {x : ℚ} :
    x ∈ unionCells ratio samples ↔ ∃ s ∈ samples, x ∈ cellSet ratio s.pt s.diam := by
  simp [unionCells]

theorem linspace_grid_eq (lo side : ℚ) (k : ℕ) (hk : 2 ≤ k) :
    linspace (lo + side / 2) (lo + k * side - side / 2) k
      = (List.range k).map fun j : ℕ => lo + side / 2 + (j : ℚ) * side := by
  unfold linspace
  refine List.map_congr_left fun j hj => ?_
  have hk1 : ((k : ℚ) - 1) ≠ 0 := by
    have : (2 : ℚ) ≤ (k : ℚ) := by exact_mod_cast hk
    linarith
  have hstep : ((lo + k * side - side / 2) - (lo + side / 2)) / ((k : ℚ) - 1) = side := by
    field_simp
    ring
  rw [hstep]

theorem exists_grid_index (t : ℚ) (k : ℕ) (hk : 1 ≤ k) (ht0 : 0 ≤ t) (htk : t ≤ (k : ℚ)) :
    ∃ j : ℕ, j < k ∧ (j : ℚ) ≤ t ∧ t ≤ (j : ℚ) + 1 := by
  have hfloor : ((⌊t⌋.toNat : ℕ) : ℚ) ≤ t := by
    rcases le_or_lt 0 ⌊t⌋ with h0 | h0
    · rw [show ((⌊t⌋.toNat : ℕ) : ℚ) = ((⌊t⌋.toNat : ℤ) : ℚ) by push_cast; ring,
        Int.toNat_of_nonneg h0]
      exact Int.floor_le t
    · rw [show ⌊t⌋.toNat = 0 from Int.toNat_of_nonpos h0.le]
      exact_mod_cast ht0
  rcases le_or_lt (⌊t⌋.toNat) (k - 1) with hle | hgt
  · refine ⟨⌊t⌋.toNat, by omega, hfloor, ?_⟩
    have h1 : t < (⌊t⌋ : ℚ) + 1 := Int.lt_floor_add_one t
    have h2 : (⌊t⌋ : ℚ) ≤ ((⌊t⌋.toNat : ℕ) : ℚ) := by
      exact_mod_cast Int.self_le_toNat ⌊t⌋
    linarith
  · refine ⟨k - 1, by omega, ?_, ?_⟩
    · have h2 : ((k - 1 : ℕ) : ℚ) ≤ ((⌊t⌋.toNat : ℕ) : ℚ) := by
        exact_mod_cast hgt.le
      linarith
    · have hcast : ((k - 1 : ℕ) : ℚ) + 1 = (k : ℚ) := by
        have h1 : 1 ≤ k := hk
        push_cast [Nat.cast_sub h1]
        ring
      linarith [hcast ▸ htk]

theorem unionCells_grid (lo side : ℚ) (k : ℕ) (mk : ℚ → Sample)
    (hmk : ∀ p : ℚ, (mk p).pt = p ∧ (mk p).diam = side)
    (hside : 0 < side) (hk : 2 ≤ k) :
    unionCells 1 ((linspace (lo + side / 2) (lo + k * side - side / 2) k).map mk)
      = Set.Icc lo (lo + k * side) := by
  rw [linspace_grid_eq lo side k hk, List.map_map]
  ext x
  rw [mem_unionCells]
  simp only [Set.mem_Icc]
  constructor
  · rintro ⟨s, hs, hx⟩
    obtain ⟨j, hj, rfl⟩ := List.mem_map.mp hs
    have hjk : j < k := List.mem_range.mp hj
    simp only [Function.comp] at hx
    rw [(hmk _).1, (hmk _).2] at hx
    simp only [cellSet, Set.mem_Icc] at hx
    have hj1 : (j : ℚ) + 1 ≤ (k : ℚ) := by exact_mod_cast hjk
    have hj0 : (0 : ℚ) ≤ (j : ℚ) := Nat.cast_nonneg j
    constructor
    · nlinarith [hx.1]
    · nlinarith [hx.2]
  · rintro ⟨hxl, hxr⟩
    have ht0 : (0 : ℚ) ≤ (x - lo) / side := div_nonneg (by linarith) hside.le
    have htk : (x - lo) / side ≤ (k : ℚ) := by
      rw [div_le_iff₀ hside]
      nlinarith
    obtain ⟨j, hjk, hjle, hjup⟩ :=
      exists_grid_index ((x - lo) / side) k (by omega) ht0 htk
    have hxt : x - lo = (x - lo) / side * side := by field_simp
    refine ⟨mk (lo + side / 2 + (j : ℚ) * side),
      List.mem_map.mpr ⟨j, List.mem_range.mpr hjk, rfl⟩, ?_⟩
    rw [(hmk _).1, (hmk _).2]
    simp only [cellSet, Set.mem_Icc]
    constructor
    · nlinarith [hjle]
    · nlinarith [hjup]

theorem samplePoints1_ok {lo hi : ℚ} {N : ℕ} {pts : List ℚ} {diam ratio : ℚ}
    (h : samplePoints1 lo hi N = .ok (pts, diam, ratio)) :
    ∃ k : ℤ, 2 ≤ k ∧
      pts = linspace (lo + (hi - lo) / k / 2) (hi - (hi - lo) / k / 2) k.toNat ∧
      diam = |(hi - lo) / k| ∧ ratio = (hi - lo) / k / |(hi - lo) / k| := by
  simp only [samplePoints1] at h
  split at h
  · cases h
  · rename_i hk
    simp only [Except.ok.injEq, Prod.mk.injEq] at h
    obtain ⟨rfl, rfl, rfl⟩ := h
    exact ⟨_, by omega, rfl, rfl, rfl⟩

/-- The grid produced by the sampler on a positive-width one-dimensional
region covers the region exactly, the ratio is `1`, and the diameter is the
(positive) cell side. -/
theorem samplePoints1_coverage {lo hi : ℚ} {N : ℕ} {pts : List ℚ} {diam ratio : ℚ}
    (hlt : lo < hi) (h : samplePoints1 lo hi N = .ok (pts, diam, ratio)) :
    ratio = 1 ∧ 0 < diam ∧
      ∀ mk : ℚ → Sample, (∀ p : ℚ, (mk p).pt = p ∧ (mk p).diam = diam) →
        unionCells 1 (pts.map mk) = Set.Icc lo hi := by
  obtain ⟨k, hk2, hpts, hdiam, hratio⟩ := samplePoints1_ok h
  have hkQ : (2 : ℚ) ≤ (k : ℚ) := by exact_mod_cast hk2
  have hk0 : ((k : ℤ) : ℚ) ≠ 0 := by linarith
  have hside : 0 < (hi - lo) / k := by
    apply div_pos (by linarith)
    linarith
  have habs : |(hi - lo) / k| = (hi - lo) / k := abs_of_pos hside
  have hratio1 : ratio = 1 := by
    rw [hratio, habs, div_self hside.ne']
  have htoNat : ((k.toNat : ℕ) : ℚ) = (k : ℚ) := by
    rw [show ((k.toNat : ℕ) : ℚ) = ((k.toNat : ℤ) : ℚ) by push_cast; ring,
      Int.toNat_of_nonneg (by omega)]
  have hkside : (hi - lo) / k * (k : ℚ) = hi - lo := div_mul_cancel₀ _ hk0
  refine ⟨hratio1, by rw [hdiam, habs]; exact hside, fun mk hmk => ?_⟩
  have hhi : lo + (k.toNat : ℚ) * ((hi - lo) / k) = hi := by
    rw [htoNat]
    nlinarith [hkside]
  have hpts' : pts = linspace (lo + (hi - lo) / k / 2)
      (lo + (k.toNat : ℚ) * ((hi - lo) / k) - (hi - lo) / k / 2) k.toNat := by
    rw [hpts, hhi]
  have hmk' : ∀ p : ℚ, (mk p).pt = p ∧ (mk p).diam = (hi - lo) / k := by
    intro p
    refine ⟨(hmk p).1, ?_⟩
    rw [(hmk p).2, hdiam, habs]
  rw [hpts']
  rw [unionCells_grid lo ((hi - lo) / k) k.toNat mk hmk' hside (by omega), hhi]

/-- The two children of a split cell cover exactly the parent's cell. -/
theorem cellSet_children (ρ p d : ℚ) (hρ : 0 ≤ ρ) (hd : 0 ≤ d) :
    cellSet ρ (p + (-1) * (1 / 4 * ρ) * d) (d / 2) ∪
      cellSet ρ (p + 1 * (1 / 4 * ρ) * d) (d / 2) = cellSet ρ p d := by
  unfold cellSet
  have h1 : p + (-1) * (1 / 4 * ρ) * d - ρ * (d / 2) / 2 = p - ρ * d / 2 := by ring
  have h2 : p + (-1) * (1 / 4 * ρ) * d + ρ * (d / 2) / 2 = p := by ring
  have h3 : p + 1 * (1 / 4 * ρ) * d - ρ * (d / 2) / 2 = p := by ring
  have h4 : p + 1 * (1 / 4 * ρ) * d + ρ * (d / 2) / 2 = p + ρ * d / 2 := by ring
  rw [h1, h2, h3, h4]
  have hρd : 0 ≤ ρ * d := mul_nonneg hρ hd
  exact Set.Icc_union_Icc_eq_Icc (by linarith) (by linarith)

/-- One engine iteration never changes the union of the represented cells and
keeps all diameters nonnegative. -/
theorem engineNext_union (cfg : EngineCfg) (samples : List Sample)
    (hρ : 0 ≤ cfg.ratio) (hd : ∀ s ∈ samples, 0 ≤ s.diam) :
    unionCells cfg.ratio (engineNext cfg samples) = unionCells cfg.ratio samples ∧
    (∀ s ∈ engineNext cfg samples, 0 ≤ s.diam) := by
  unfold engineNext
  rcases hstep : engineStep cfg samples with c | next
  · exact ⟨rfl, hd⟩
  · have hnext := engineStep_inr_inv cfg samples next hstep
    set cert := certified cfg.L1 cfg.L2 cfg.G cfg.eps (engineFit cfg samples) with hcert
    constructor
    · ext x
      rw [mem_unionCells, mem_unionCells, hnext]
      simp only [List.mem_append, subdivide, List.mem_map, List.mem_filter]
      constructor
      · rintro ⟨s, hs, hx⟩
        rcases hs with hs | ⟨⟨u, ⟨hu, _⟩, rfl⟩ | ⟨u, ⟨hu, _⟩, rfl⟩⟩
        · exact ⟨s, hs.1, hx⟩
        · refine ⟨u, hu, ?_⟩
          rw [← cellSet_children cfg.ratio u.pt u.diam hρ (hd u hu)]
          exact Set.mem_union_left _ (by simpa [child] using hx)
        · refine ⟨u, hu, ?_⟩
          rw [← cellSet_children cfg.ratio u.pt u.diam hρ (hd u hu)]
          exact Set.mem_union_right _ (by simpa [child] using hx)
      · rintro ⟨s, hs, hx⟩
        by_cases hc : cert s = true
        · exact ⟨s, Or.inl ⟨hs, hc⟩, hx⟩
        · rw [← cellSet_children cfg.ratio s.pt s.diam hρ (hd s hs)] at hx
          rcases hx with hx | hx
          · exact ⟨child cfg (-1) s,
              Or.inr (Or.inl ⟨s, ⟨hs, by simp [hc]⟩, rfl⟩), by simpa [child] using hx⟩
          · exact ⟨child cfg 1 s,
              Or.inr (Or.inr ⟨s, ⟨hs, by simp [hc]⟩, rfl⟩), by simpa [child] using hx⟩
    · intro s hs
      rw [hnext] at hs
      rcases List.mem_append.mp hs with hs | hs
      · exact hd s (List.mem_filter.mp hs).1
      · unfold subdivide at hs
        rcases List.mem_append.mp hs with hs | hs <;>
          obtain ⟨u, hu, rfl⟩ := List.mem_map.mp hs <;>
          simp only [child] <;>
          have := hd u (List.mem_filter.mp hu).1 <;>
          linarith

/-! ## C6: the coverage invariant -/

/-- C6: at every iteration of the certification engine the union of the
hyper-cuboid sub-regions represented by the working samples equals the full
input region: the initial grid tiles the region exactly, and each subdivision
replaces an uncertified cell by an exhaustive partition of it. -/
theorem c6_coverage_invariant (cfg : EngineCfg) (lo hi : ℚ) (N : ℕ)
    (pts : List ℚ) (diam ratio : ℚ) (hlt : lo < hi)
    (hok : samplePoints1 lo hi N = .ok (pts, diam, ratio))
    (hcfg : cfg.ratio = ratio) :
    ∀ k : ℕ,
      unionCells cfg.ratio
        ((engineNext cfg)^[k] (pts.map fun p => ⟨p, diam, cfg.g p, cfg.g' p⟩))
        = Set.Icc lo hi := by
  obtain ⟨hr1, hd0, huni⟩ := samplePoints1_coverage hlt hok
  have hρ : 0 ≤ cfg.ratio := by rw [hcfg, hr1]; norm_num
  have aux : ∀ k : ℕ,
      unionCells cfg.ratio
          ((engineNext cfg)^[k] (pts.map fun p => ⟨p, diam, cfg.g p, cfg.g' p⟩))
        = Set.Icc lo hi ∧
      ∀ s ∈ (engineNext cfg)^[k] (pts.map fun p => ⟨p, diam, cfg.g p, cfg.g' p⟩),
        0 ≤ s.diam := by
    intro k
    induction k with
    | zero =>
      rw [Function.iterate_zero_apply]
      refine ⟨by
        rw [hcfg, hr1]
        exact huni (fun p => ⟨p, diam, cfg.g p, cfg.g' p⟩) (fun p => ⟨rfl, rfl⟩), ?_⟩
      intro s hs
      obtain ⟨p, _, rfl⟩ := List.mem_map.mp hs
      exact hd0.le
    | succ k ih =>
      rw [Function.iterate_succ_apply']
      have hstep := engineNext_union cfg _ hρ ih.2
      exact ⟨hstep.1.trans ih.1, hstep.2⟩
  exact fun k => (aux k).1

/-- C6 witness: one iteration on the initial grid of `[0, 1]` with four
cells. -/
theorem c6_coverage_invariant_witness :
    unionCells trivCfg.ratio
        ((engineNext trivCfg)^[1]
          (([1/8, 3/8, 5/8, 7/8] : List ℚ).map fun p =>
            ⟨p, 1/4, trivCfg.g p, trivCfg.g' p⟩))
      = Set.Icc (0 : ℚ) 1 :=
  c6_coverage_invariant trivCfg 0 1 4 [1/8, 3/8, 5/8, 7/8] (1/4) 1 (by norm_num)
    (by with_unfolding_all decide) rfl 1

/-! ## Soundness of the certified result -/

theorem engineStep_inl_inv (cfg : EngineCfg) (samples : List Sample) (c : ℚ × ℚ)
    (h : engineStep cfg samples = .inl c) :
    (∀ s ∈ samples,
      certified cfg.L1 cfg.L2 cfg.G cfg.eps (engineFit cfg samples) s = true) ∧
    c = ((engineFit cfg samples).1, (engineFit cfg samples).2
      + maxList (samples.map (margin cfg.L1 cfg.L2 cfg.G (engineFit cfg samples)))) := by
  simp only [engineStep] at h
  split at h
  · rename_i hall
    cases h
    exact ⟨List.all_eq_true.mp hall, rfl⟩
  · cases h

theorem engineFit_abs_slope (cfg : EngineCfg) (samples : List Sample)
    (hSlope : ∀ pts vals : List ℚ, |(cfg.solver pts vals cfg.eps).1| ≤ cfg.L1) :
    |(engineFit cfg samples).1| ≤ cfg.L1 :=
  hSlope _ _

/-- Soundness of the terminal result of the loop: on every point of every
represented cell, the returned affine function dominates the engine's (signed)
target — provided the candidate's slope never exceeds `G·L1 = L1` in
magnitude. -/
theorem engineLoop_sound (cfg : EngineCfg)
    (hG : cfg.G = 1)
    (hLip : ∀ x y : ℚ, |cfg.g x - cfg.g y| ≤ cfg.L1 * |x - y|)
    (hTay : ∀ x y : ℚ, cfg.g x ≤ cfg.g y + cfg.g' y * (x - y) + cfg.L2 / 2 * (x - y) ^ 2)
    (hSlope : ∀ pts vals : List ℚ, |(cfg.solver pts vals cfg.eps).1| ≤ cfg.L1)
    (hL2 : 0 ≤ cfg.L2) (hρ0 : 0 ≤ cfg.ratio) (hρ1 : cfg.ratio ≤ 1) :
    ∀ (fuel : ℕ) (samples : List Sample) (a b : ℚ),
      engineLoop cfg fuel samples = some (a, b) →
      (∀ s ∈ samples, s.act = cfg.g s.pt ∧ s.grad = cfg.g' s.pt ∧ 0 ≤ s.diam) →
      ∀ x : ℚ, (∃ s ∈ samples, x ∈ cellSet cfg.ratio s.pt s.diam) →
      cfg.g x ≤ a * x + b := by
  have hL1 : 0 ≤ cfg.L1 := le_trans (abs_nonneg _) (hSlope [] [])
  intro fuel
  induction fuel with
  | zero => intro samples a b h; cases h
  | succ fuel ih =>
    intro samples a b h hinv x hx
    rw [engineLoop_succ] at h
    rcases hstep : engineStep cfg samples with c | next
    · rw [hstep] at h
      injection h with h
      obtain ⟨hall, rfl⟩ := engineStep_inl_inv cfg samples c hstep
      injection h with ha hb
      subst ha
      subst hb
      obtain ⟨s, hs, hxc⟩ := hx
      obtain ⟨hact, hgrad, hdnn⟩ := hinv s hs
      set cfit := engineFit cfg samples with hcfit
      have hsl : |cfit.1| ≤ cfg.L1 := engineFit_abs_slope cfg samples hSlope
      simp only [cellSet, Set.mem_Icc] at hxc
      have hxp : |x - s.pt| ≤ s.diam / 2 := by
        have hρd : cfg.ratio * s.diam ≤ s.diam := by nlinarith
        rw [abs_le]
        constructor <;> nlinarith [hxc.1, hxc.2]
      have hM : margin cfg.L1 cfg.L2 cfg.G cfit s
          ≤ maxList (samples.map (margin cfg.L1 cfg.L2 cfg.G cfit)) :=
        maxList_ge (List.mem_map_of_mem _ hs)
      rcases min_le_iff.mp hM with hm | hm
      · -- the value-Lipschitz margin certifies the cell
        have hGm : (1 + cfg.G) * cfg.L1 * (s.diam / 2)
            = 2 * (cfg.L1 * (s.diam / 2)) := by rw [hG]; ring
        have hflip : cfg.g x - cfg.g s.pt ≤ cfg.L1 * |x - s.pt| :=
          le_trans (le_abs_self _) (hLip x s.pt)
        have hstep1 : cfg.L1 * |x - s.pt| ≤ cfg.L1 * (s.diam / 2) :=
          mul_le_mul_of_nonneg_left hxp hL1
        have habs : |cfit.1 * (x - s.pt)| ≤ cfg.L1 * (s.diam / 2) := by
          rw [abs_mul]
          exact mul_le_mul hsl hxp (abs_nonneg _) hL1
        have hlow : -(cfg.L1 * (s.diam / 2)) ≤ cfit.1 * (x - s.pt) := by
          have := neg_abs_le (cfit.1 * (x - s.pt))
          linarith
        have hbd : boundDiff cfit s = cfit.1 * s.pt + cfit.2 - cfg.g s.pt := by
          rw [boundDiff, hact]
        have hax : cfit.1 * x = cfit.1 * s.pt + cfit.1 * (x - s.pt) := by ring
        simp only [boundDiff] at hm
        rw [hact] at hm
        linarith [hGm]
      · -- the gradient-Lipschitz margin certifies the cell
        have htay := hTay x s.pt
        have hsq : (x - s.pt) ^ 2 ≤ (s.diam / 2) ^ 2 := by
          have h1 : |x - s.pt| ^ 2 ≤ (s.diam / 2) ^ 2 :=
            pow_le_pow_left (abs_nonneg _) hxp 2
          rw [sq_abs] at h1
          exact h1
        have hsq2 : cfg.L2 / 2 * (x - s.pt) ^ 2 ≤ cfg.L2 / 2 * (s.diam / 2) ^ 2 := by
          apply mul_le_mul_of_nonneg_left hsq
          linarith
        have habs : |(cfit.1 - s.grad) * (x - s.pt)|
            ≤ |cfit.1 - s.grad| * (s.diam / 2) := by
          rw [abs_mul]
          exact mul_le_mul_of_nonneg_left hxp (abs_nonneg _)
        have hlow : -(|cfit.1 - s.grad| * (s.diam / 2)) ≤ (cfit.1 - s.grad) * (x - s.pt) := by
          have := neg_abs_le ((cfit.1 - s.grad) * (x - s.pt))
          linarith
        simp only [boundDiff] at hm
        rw [hact, hgrad] at hm
        have hax : cfit.1 * x = cfit.1 * s.pt + s.grad * (x - s.pt)
            + (cfit.1 - s.grad) * (x - s.pt) := by ring
        rw [hgrad] at hax hlow
        linarith [htay, hsq2]
    · rw [hstep] at h
      refine ih next a b h ?_ x ?_
      · intro s hs
        rw [engineStep_inr_inv cfg samples next hstep] at hs
        rcases List.mem_append.mp hs with hs | hs
        · exact hinv s (List.mem_filter.mp hs).1
        · unfold subdivide at hs
          rcases List.mem_append.mp hs with hs | hs <;>
            obtain ⟨u, hu, rfl⟩ := List.mem_map.mp hs <;>
            have hdu := (hinv u (List.mem_filter.mp hu).1).2.2 <;>
            exact ⟨rfl, rfl, by simp only [child]; linarith⟩
      · have hxu : x ∈ unionCells cfg.ratio samples := mem_unionCells.mpr hx
        have hnext : engineNext cfg samples = next := by
          unfold engineNext
          rw [hstep]
        have hd : ∀ s ∈ samples, 0 ≤ s.diam := fun s hs => (hinv s hs).2.2
        have := (engineNext_union cfg samples hρ0 hd).1
        rw [hnext] at this
        exact mem_unionCells.mp (this ▸ hxu)

theorem boundOneSide_ok_inv (B : OptimalLinearBounder) (upper : Bool) (fuel : ℕ)
    (lo hi : ℚ) (c : ℚ × ℚ)
    (h : B.boundOneSide upper fuel [(lo, hi)] = .ok (some c)) :
    ∃ (pts : List ℚ) (diam ratio : ℚ) (c0 : ℚ × ℚ),
      samplePoints1 lo hi B.initial_npoints = .ok (pts, diam, ratio) ∧
      1 < pts.length ∧
      engineLoop ⟨B.solver,
          fun x => if upper then B.target_function x else -(B.target_function x),
          fun x => if upper then B.gradient x else -(B.gradient x),
          B.L1, B.L2, B.eps, 1, ratio, lo, hi⟩ fuel
        (pts.map fun p => ⟨p, diam,
          if upper then B.target_function p else -(B.target_function p),
          if upper then B.gradient p else -(B.gradient p)⟩) = some c0 ∧
      c = (if upper then c0 else (-c0.1, -c0.2)) := by
  unfold OptimalLinearBounder.boundOneSide at h
  split at h
  · cases h
  · rename_i G lo2 hi2 heqG heqB
    have hGG : (1 : ℚ) = G := by simpa [getGBound] using heqG
    subst hGG
    obtain ⟨h1, h2⟩ : lo = lo2 ∧ hi = hi2 := by simpa using heqB
    subst h1
    subst h2
    rcases hs : samplePoints1 lo hi B.initial_npoints with e | v
    · rw [hs] at h
      cases h
    · rw [hs] at h
      obtain ⟨pts, diam, ratio⟩ := v
      simp only at h
      split at h
      · cases h
      · rename_i hlen
        split at h
        · cases h
        · rename_i c0 hloop
          simp only [Except.ok.injEq, Option.some.injEq] at h
          exact ⟨pts, diam, ratio, c0, rfl, by omega, hloop, h.symm⟩
  · rename_i a heq hnc
    exact (hnc lo hi rfl).elim

/-- C1 (amended): soundness of the returned bounds.  In addition to the
claim's hypotheses (the target is `L1`-Lipschitz, the gradient is the
target's `L2`-Lipschitz derivative — used through the standard descent
inequality it implies — and the discrete solver upper-bounds the supplied
values within `eps`), the solver's reported slope must be bounded in
magnitude by `G·L1 = L1`; the intercept inflation at termination then makes
the returned pair sound with zero extra tolerance:
`lower · (x,1) ≤ f(x) ≤ upper · (x,1)` for every `x` in the region. -/
theorem c1_soundness (B : OptimalLinearBounder) (fuel : ℕ) (lo hi : ℚ)
    (l u : ℚ × ℚ)
    (hLip : ∀ x y : ℚ, |B.target_function x - B.target_function y| ≤ B.L1 * |x - y|)
    (hTay : ∀ x y : ℚ, |B.target_function x - B.target_function y
      - B.gradient y * (x - y)| ≤ B.L2 / 2 * (x - y) ^ 2)
    (hContract : ∀ (pts vals : List ℚ) (i : ℕ) (h1 : i < pts.length) (h2 : i < vals.length),
      vals.get ⟨i, h2⟩ - B.eps
        ≤ (B.solver pts vals B.eps).1 * pts.get ⟨i, h1⟩ + (B.solver pts vals B.eps).2)
    (hSlope : ∀ pts vals : List ℚ, |(B.solver pts vals B.eps).1| ≤ B.L1)
    (hRet : B.findOptimalBounds fuel [(lo, hi)] = .ok (some (l, u))) :
    ∀ x ∈ Set.Icc lo hi,
      l.1 * x + l.2 ≤ B.target_function x ∧ B.target_function x ≤ u.1 * x + u.2 := by
  have hL2 : 0 ≤ B.L2 := by
    have h := hTay 1 0
    have h0 := abs_nonneg (B.target_function 1 - B.target_function 0 - B.gradient 0 * (1 - 0))
    have h1 : B.L2 / 2 * ((1 : ℚ) - 0) ^ 2 = B.L2 / 2 := by ring
    rw [h1] at h
    have h2 : (0 : ℚ) ≤ B.L2 / 2 := le_trans h0 h
    linarith
  unfold OptimalLinearBounder.findOptimalBounds at hRet
  split at hRet
  case isFalse => cases hRet
  case isTrue hwidth =>
  rcases hlow : B.boundOneSide false fuel [(lo, hi)] with e | lowOpt
  · rw [hlow] at hRet
    cases hRet
  rw [hlow] at hRet
  rcases hup : B.boundOneSide true fuel [(lo, hi)] with e | upOpt
  · rw [hup] at hRet
    cases hRet
  rw [hup] at hRet
  simp only at hRet
  match lowOpt, upOpt, hRet with
  | some l', some u', hRet =>
  simp only [Except.ok.injEq, Option.some.injEq, Prod.mk.injEq] at hRet
  obtain ⟨rfl, rfl⟩ := hRet
  obtain ⟨ptsL, diamL, ratioL, c0L, hsL, _, hloopL, hcL⟩ :=
    boundOneSide_ok_inv B false fuel lo hi l' hlow
  obtain ⟨ptsU, diamU, ratioU, c0U, hsU, _, hloopU, hcU⟩ :=
    boundOneSide_ok_inv B true fuel lo hi u' hup
  intro x hxmem
  rcases lt_trichotomy lo hi with hlt | heqv | hgt
  · obtain ⟨hr1L, hdL, huniL⟩ := samplePoints1_coverage hlt hsL
    obtain ⟨hr1U, hdU, huniU⟩ := samplePoints1_coverage hlt hsU
    subst hr1L
    subst hr1U
    constructor
    · -- lower bound: the engine ran on the negated target
      have hsound := engineLoop_sound
        ⟨B.solver, fun x => if false then B.target_function x else -(B.target_function x),
          fun x => if false then B.gradient x else -(B.gradient x),
          B.L1, B.L2, B.eps, 1, 1, lo, hi⟩ rfl
        (fun x y => by
          have h := hLip x y
          show |-(B.target_function x) - -(B.target_function y)| ≤ B.L1 * |x - y|
          rw [show -(B.target_function x) - -(B.target_function y)
            = -(B.target_function x - B.target_function y) by ring, abs_neg]
          exact h)
        (fun x y => by
          have h := neg_abs_le (B.target_function x - B.target_function y
            - B.gradient y * (x - y))
          have h2 := hTay x y
          show -(B.target_function x) ≤ -(B.target_function y)
            + -(B.gradient y) * (x - y) + B.L2 / 2 * (x - y) ^ 2
          nlinarith)
        hSlope hL2 (by norm_num) (by norm_num)
        fuel _ c0L.1 c0L.2 hloopL
        (fun s hs => by
          obtain ⟨p, _, rfl⟩ := List.mem_map.mp hs
          exact ⟨rfl, rfl, hdL.le⟩)
        x (by
          rw [mem_unionCells.symm]
          show x ∈ unionCells 1 (ptsL.map fun p => (⟨p, diamL,
            if false then B.target_function p else -(B.target_function p),
            if false then B.gradient p else -(B.gradient p)⟩ : Sample))
          rw [huniL (fun p => ⟨p, diamL,
            if false then B.target_function p else -(B.target_function p),
            if false then B.gradient p else -(B.gradient p)⟩) (fun p => ⟨rfl, rfl⟩)]
          exact hxmem)
      have hsound' : -(B.target_function x) ≤ c0L.1 * x + c0L.2 := hsound
      have hl : l' = (-c0L.1, -c0L.2) := by simpa using hcL
      rw [hl]
      show -c0L.1 * x + -c0L.2 ≤ B.target_function x
      linarith
    · -- upper bound
      have hsound := engineLoop_sound
        ⟨B.solver, fun x => if true then B.target_function x else -(B.target_function x),
          fun x => if true then B.gradient x else -(B.gradient x),
          B.L1, B.L2, B.eps, 1, 1, lo, hi⟩ rfl
        (fun x y => hLip x y)
        (fun x y => by
          have h := le_abs_self (B.target_function x - B.target_function y
            - B.gradient y * (x - y))
          have h2 := hTay x y
          show B.target_function x ≤ B.target_function y
            + B.gradient y * (x - y) + B.L2 / 2 * (x - y) ^ 2
          nlinarith)
        hSlope hL2 (by norm_num) (by norm_num)
        fuel _ c0U.1 c0U.2 hloopU
        (fun s hs => by
          obtain ⟨p, _, rfl⟩ := List.mem_map.mp hs
          exact ⟨rfl, rfl, hdU.le⟩)
        x (by
          rw [mem_unionCells.symm]
          show x ∈ unionCells 1 (ptsU.map fun p => (⟨p, diamU,
            if true then B.target_function p else -(B.target_function p),
            if true then B.gradient p else -(B.gradient p)⟩ : Sample))
          rw [huniU (fun p => ⟨p, diamU,
            if true then B.target_function p else -(B.target_function p),
            if true then B.gradient p else -(B.gradient p)⟩) (fun p => ⟨rfl, rfl⟩)]
          exact hxmem)
      have hsound' : B.target_function x ≤ c0U.1 * x + c0U.2 := hsound
      have hu : u' = c0U := by simpa using hcU
      rw [hu]
      exact hsound'
  · exfalso
    subst heqv
    simp [samplePoints1] at hsL
  · exfalso
    obtain ⟨h1, h2⟩ := Set.mem_Icc.mp hxmem
    linarith

/-- C1 witness: the zero target with the exact max-solver on `[0, 1]`. -/
theorem c1_soundness_witness :
    (0 : ℚ) * (1 / 2) + -(1 / 128) ≤ maxB.target_function (1 / 2) ∧
      maxB.target_function (1 / 2) ≤ (0 : ℚ) * (1 / 2) + 1 / 128 :=
  c1_soundness maxB 1 0 1 (0, -(1 / 128)) (0, 1 / 128)
    (by
      intro x y
      show |(0 : ℚ) - 0| ≤ 1 * |x - y|
      simp)
    (by
      intro x y
      show |(0 : ℚ) - 0 - 0 * (x - y)| ≤ 1 / 2 * (x - y) ^ 2
      simp
      positivity)
    (by
      intro pts vals i h1 h2
      show vals.get ⟨i, h2⟩ - 1 / 100 ≤ 0 * pts.get ⟨i, h1⟩ + maxList vals
      have := maxList_ge (List.get_mem vals i h2)
      linarith)
    (by
      intro pts vals
      show |(0 : ℚ)| ≤ 1
      simp)
    (by with_unfolding_all decide)
    (1 / 2) (by constructor <;> norm_num)

set_option maxRecDepth 100000 in
/-- C1 counterexample: with the target `f = 0` (which is `1`-Lipschitz, with
`0`-gradient whose Lipschitz constant is at most `L2 = 1`) and the solver
`steepSolver` — which truly upper-bounds the supplied values (hence satisfies
the documented contract for `eps = 1`) but reports slope `1000 > L1` — the
pair returned by `find_optimal_bounds` on `[0, 1]` is unsound: the returned
lower bound at `x = 0` is `499/4 > f(0) = 0`. -/
theorem c1_counterexample :
    ¬ ((∀ x y : ℚ, |steepB.target_function x - steepB.target_function y|
          ≤ steepB.L1 * |x - y|) →
       (∀ x y : ℚ, |steepB.target_function x - steepB.target_function y
          - steepB.gradient y * (x - y)| ≤ steepB.L2 / 2 * (x - y) ^ 2) →
       (∀ (pts vals : List ℚ) (i : ℕ) (h1 : i < pts.length) (h2 : i < vals.length),
          vals.get ⟨i, h2⟩ - steepB.eps
            ≤ (steepB.solver pts vals steepB.eps).1 * pts.get ⟨i, h1⟩
              + (steepB.solver pts vals steepB.eps).2) →
       ∀ l u : ℚ × ℚ, steepB.findOptimalBounds 5 [(0, 1)] = .ok (some (l, u)) →
         ∀ x ∈ Set.Icc (0 : ℚ) 1,
           l.1 * x + l.2 ≤ steepB.target_function x ∧
             steepB.target_function x ≤ u.1 * x + u.2 + steepB.eps) := by
  intro hclaim
  have h := hclaim
    (by
      intro x y
      show |(0 : ℚ) - 0| ≤ 1 * |x - y|
      simp)
    (by
      intro x y
      show |(0 : ℚ) - 0 - 0 * (x - y)| ≤ 1 / 2 * (x - y) ^ 2
      simp
      positivity)
    (by
      intro pts vals i h1 h2
      show vals.get ⟨i, h2⟩ - 1
        ≤ 1000 * pts.get ⟨i, h1⟩
          + maxList (List.zipWith (fun v p => v - 1000 * p) vals pts)
      have hlen : i < (List.zipWith (fun v p => v - 1000 * p) vals pts).length := by
        rw [List.length_zipWith]
        omega
      have hval : (List.zipWith (fun v p => v - 1000 * p) vals pts).get ⟨i, hlen⟩
          = vals.get ⟨i, h2⟩ - 1000 * pts.get ⟨i, h1⟩ := by
        simp [List.get_eq_getElem, List.getElem_zipWith]
      have hmem := List.get_mem (List.zipWith (fun v p => v - 1000 * p) vals pts) i hlen
      rw [hval] at hmem
      have := maxList_ge hmem
      linarith)
    (-1000, 499 / 4) (1000, -(499 / 4)) (by with_unfolding_all decide)
    0 (Set.left_mem_Icc.mpr (by norm_num))
  have h2 : (-1000 : ℚ) * 0 + 499 / 4 ≤ (0 : ℚ) := h.1
  norm_num at h2

/-! ## C7: termination helpers -/

theorem sum_map_filter_partition {α : Type} (p : α → Bool) (f : α → ℕ) (l : List α) :
    ((l.filter p).map f).sum + ((l.filter fun a => !p a).map f).sum = (l.map f).sum := by
  induction l with
  | nil => rfl
  | cons a l ih =>
    cases h : p a <;> simp [List.filter_cons, h, ← ih] <;> omega

theorem sum_map_two_mul_add_one {α : Type} (g : α → ℕ) (l : List α) :
    (l.map fun a => 2 * g a + 1).sum = 2 * (l.map g).sum + l.length := by
  induction l with
  | nil => rfl
  | cons a l ih => simp [ih]; ring

theorem budget_pos {L1 δ d : ℚ} (hδ : 0 < δ) (h : δ ≤ L1 * d) :
    1 ≤ budget L1 δ d := by
  unfold budget
  have hx : (1 : ℚ) ≤ L1 * d / δ := (one_le_div hδ).mpr h
  have hlog : 0 ≤ Int.log 2 (L1 * d / δ) := by
    rw [Int.log_of_one_le_right _ hx]
    exact_mod_cast Nat.zero_le _
  omega

theorem budget_half {L1 δ d : ℚ} (hδ : 0 < δ) (h : δ ≤ L1 * d) :
    budget L1 δ (d / 2) < budget L1 δ d := by
  unfold budget
  have hx : (1 : ℚ) ≤ L1 * d / δ := (one_le_div hδ).mpr h
  have hx0 : (0 : ℚ) < L1 * d / δ := lt_of_lt_of_le one_pos hx
  have harg : L1 * (d / 2) / δ = L1 * d / δ / 2 := by ring
  rw [harg]
  have hpos : (0 : ℚ) < L1 * d / δ / 2 := by linarith
  have h1 : ((2 : ℕ) : ℚ) ^ Int.log 2 (L1 * d / δ / 2) ≤ L1 * d / δ / 2 :=
    Int.zpow_log_le_self (by norm_num) hpos
  have h2 : ((2 : ℕ) : ℚ) ^ (Int.log 2 (L1 * d / δ / 2) + 1) ≤ L1 * d / δ := by
    rw [zpow_add_one₀ (by norm_num : ((2 : ℕ) : ℚ) ≠ 0)]
    push_cast at h1 ⊢
    linarith
  have hle : Int.log 2 (L1 * d / δ / 2) + 1 ≤ Int.log 2 (L1 * d / δ) :=
    (Int.zpow_le_iff_le_log (by norm_num) hx0).mp h2
  have hlog0 : 0 ≤ Int.log 2 (L1 * d / δ) := by
    rw [Int.log_of_one_le_right _ hx]
    exact_mod_cast Nat.zero_le _
  omega

theorem phiMeasure_append (L1 δ : ℚ) (l1 l2 : List Sample) :
    phiMeasure L1 δ (l1 ++ l2) = phiMeasure L1 δ l1 + phiMeasure L1 δ l2 := by
  simp [phiMeasure]

theorem phiMeasure_map_child (cfg : EngineCfg) (σ : ℚ) (L1 δ : ℚ) (l : List Sample) :
    phiMeasure L1 δ (l.map (child cfg σ))
      = (l.map fun s => 2 ^ (budget L1 δ (s.diam / 2) + 1) - 1).sum := by
  unfold phiMeasure
  rw [List.map_map]
  rfl

theorem engineFit_contract (cfg : EngineCfg) (samples : List Sample) (δ : ℚ)
    (hsol : ∀ (pts vals : List ℚ) (i : ℕ) (h1 : i < pts.length) (h2 : i < vals.length),
      vals.get ⟨i, h2⟩ - cfg.eps + δ
        ≤ (cfg.solver pts vals cfg.eps).1 * pts.get ⟨i, h1⟩
          + (cfg.solver pts vals cfg.eps).2) :
    ∀ s ∈ samples, s.act - cfg.eps + δ
      ≤ (engineFit cfg samples).1 * s.pt + (engineFit cfg samples).2 := by
  intro s hs
  obtain ⟨i, hi⟩ := List.mem_iff_get.mp hs
  have h1 : (i : ℕ) < ((samples.map fun s => s.pt).map
      fun p => p - (cfg.lo + cfg.hi) / 2).length := by
    simp only [List.length_map]
    exact i.isLt
  have h2 : (i : ℕ) < (samples.map fun s => s.act).length := by
    simp only [List.length_map]
    exact i.isLt
  have hq := hsol ((samples.map fun s => s.pt).map fun p => p - (cfg.lo + cfg.hi) / 2)
    (samples.map fun s => s.act) i h1 h2
  have hpts : ((samples.map fun s => s.pt).map
      fun p => p - (cfg.lo + cfg.hi) / 2).get ⟨i, h1⟩ = s.pt - (cfg.lo + cfg.hi) / 2 := by
    simp only [List.get_eq_getElem, List.getElem_map]
    rw [show samples[(i : ℕ)] = s from hi]
  have hvals : (samples.map fun s => s.act).get ⟨i, h2⟩ = s.act := by
    simp only [List.get_eq_getElem, List.getElem_map]
    rw [show samples[(i : ℕ)] = s from hi]
  rw [hpts, hvals] at hq
  have hfit : (engineFit cfg samples).1 * s.pt + (engineFit cfg samples).2
      = (cfg.solver ((samples.map fun s => s.pt).map fun p => p - (cfg.lo + cfg.hi) / 2)
          (samples.map fun s => s.act) cfg.eps).1 * (s.pt - (cfg.lo + cfg.hi) / 2)
        + (cfg.solver ((samples.map fun s => s.pt).map fun p => p - (cfg.lo + cfg.hi) / 2)
          (samples.map fun s => s.act) cfg.eps).2 := by
    show (cfg.solver _ _ cfg.eps).1 * s.pt
        + ((cfg.solver _ _ cfg.eps).2
          - (cfg.solver _ _ cfg.eps).1 * ((cfg.lo + cfg.hi) / 2)) = _
    ring
  rw [hfit]
  exact hq

theorem failed_sample_L1 (cfg : EngineCfg) (s : Sample) (c : ℚ × ℚ) (δ : ℚ)
    (hG : cfg.G = 1)
    (hbd : s.act - cfg.eps + δ ≤ c.1 * s.pt + c.2)
    (hfail : certified cfg.L1 cfg.L2 cfg.G cfg.eps c s = false) :
    δ ≤ cfg.L1 * s.diam := by
  have hm : cfg.eps ≤ margin cfg.L1 cfg.L2 cfg.G c s := by
    have := of_decide_eq_false hfail
    exact not_lt.mp this
  have h1 : cfg.eps ≤ (1 + cfg.G) * cfg.L1 * (s.diam / 2) - boundDiff c s :=
    le_trans hm (min_le_left _ _)
  rw [hG] at h1
  unfold boundDiff at h1
  nlinarith [h1, hbd]

theorem phiMeasure_step (cfg : EngineCfg) (samples next : List Sample) (δ : ℚ)
    (hδ : 0 < δ) (hG : cfg.G = 1)
    (hbd : ∀ s ∈ samples, s.act - cfg.eps + δ
      ≤ (engineFit cfg samples).1 * s.pt + (engineFit cfg samples).2)
    (hstep : engineStep cfg samples = .inr next) :
    phiMeasure cfg.L1 δ next < phiMeasure cfg.L1 δ samples := by
  have hnext := engineStep_inr_inv cfg samples next hstep
  have hex : ∃ s ∈ samples,
      certified cfg.L1 cfg.L2 cfg.G cfg.eps (engineFit cfg samples) s = false := by
    by_contra hno
    push_neg at hno
    have hall : ∀ s ∈ samples,
        certified cfg.L1 cfg.L2 cfg.G cfg.eps (engineFit cfg samples) s = true := by
      intro s hs
      cases hps : certified cfg.L1 cfg.L2 cfg.G cfg.eps (engineFit cfg samples) s with
      | false => exact absurd hps (hno s hs)
      | true => rfl
    rw [engineStep_all_certified cfg samples hall] at hstep
    cases hstep
  have hL1d : ∀ s ∈ samples,
      certified cfg.L1 cfg.L2 cfg.G cfg.eps (engineFit cfg samples) s = false →
      δ ≤ cfg.L1 * s.diam := fun s hs hf =>
    failed_sample_L1 cfg s (engineFit cfg samples) δ hG (hbd s hs) hf
  rw [hnext, phiMeasure_append]
  unfold subdivide
  rw [phiMeasure_append, phiMeasure_map_child, phiMeasure_map_child]
  have hkey : ∀ s ∈ samples.filter fun s =>
        !certified cfg.L1 cfg.L2 cfg.G cfg.eps (engineFit cfg samples) s,
      2 * (2 ^ (budget cfg.L1 δ (s.diam / 2) + 1) - 1) + 1
        ≤ 2 ^ (budget cfg.L1 δ s.diam + 1) - 1 := by
    intro s hs
    obtain ⟨hmem, hflt⟩ := List.mem_filter.mp hs
    have hfail : certified cfg.L1 cfg.L2 cfg.G cfg.eps (engineFit cfg samples) s = false := by
      simpa using hflt
    have hd := hL1d s hmem hfail
    have hb1 := budget_pos hδ hd
    have hbh := budget_half hδ hd
    have hpow : (2 : ℕ) ^ (budget cfg.L1 δ (s.diam / 2) + 1)
        ≤ 2 ^ budget cfg.L1 δ s.diam :=
      Nat.pow_le_pow_right (by norm_num) (by omega)
    have hpos : (1 : ℕ) ≤ 2 ^ (budget cfg.L1 δ (s.diam / 2) + 1) :=
      Nat.one_le_two_pow
    have hdup : (2 : ℕ) ^ (budget cfg.L1 δ s.diam + 1)
        = 2 * 2 ^ budget cfg.L1 δ s.diam := by
      rw [pow_succ]
      ring
    omega
  have hsum := List.sum_le_sum hkey
  rw [sum_map_two_mul_add_one] at hsum
  have hlpos : 0 < (samples.filter fun s =>
      !certified cfg.L1 cfg.L2 cfg.G cfg.eps (engineFit cfg samples) s).length := by
    obtain ⟨s, hs, hf⟩ := hex
    apply List.length_pos.mpr
    intro hnil
    have : s ∈ samples.filter fun s =>
        !certified cfg.L1 cfg.L2 cfg.G cfg.eps (engineFit cfg samples) s :=
      List.mem_filter.mpr ⟨hs, by rw [hf]; rfl⟩
    rw [hnil] at this
    cases this
  have hpart := sum_map_filter_partition
    (certified cfg.L1 cfg.L2 cfg.G cfg.eps (engineFit cfg samples))
    (fun s => 2 ^ (budget cfg.L1 δ s.diam + 1) - 1) samples
  unfold phiMeasure
  omega

theorem engineLoop_of_phi_lt (cfg : EngineCfg) (δ : ℚ) (hδ : 0 < δ) (hG : cfg.G = 1)
    (hsol : ∀ (pts vals : List ℚ) (i : ℕ) (h1 : i < pts.length) (h2 : i < vals.length),
      vals.get ⟨i, h2⟩ - cfg.eps + δ
        ≤ (cfg.solver pts vals cfg.eps).1 * pts.get ⟨i, h1⟩
          + (cfg.solver pts vals cfg.eps).2) :
    ∀ (n : ℕ) (samples : List Sample), phiMeasure cfg.L1 δ samples < n →
      ∃ c, engineLoop cfg n samples = some c := by
  intro n
  induction n with
  | zero => intro samples h; omega
  | succ n ih =>
    intro samples hphi
    rw [engineLoop_succ]
    rcases hstep : engineStep cfg samples with c | next
    · exact ⟨c, rfl⟩
    · have hdec := phiMeasure_step cfg samples next δ hδ hG
        (engineFit_contract cfg samples δ hsol) hstep
      obtain ⟨c, hc⟩ := ih next (by omega)
      exact ⟨c, hc⟩

theorem samplePoints1_pos (lo hi : ℚ) (N : ℕ) (hlt : lo < hi) (hN : 2 ≤ N) :
    ∃ pts diam ratio, samplePoints1 lo hi N = .ok (pts, diam, ratio) ∧
      pts.length = N := by
  simp only [samplePoints1]
  have hw : hi - lo ≠ 0 := by linarith
  have hNQ : ((N : ℕ) : ℚ) ≠ 0 := Nat.cast_ne_zero.mpr (by omega)
  have hdiv : (hi - lo) / ((hi - lo) / (N : ℚ)) = (N : ℚ) := by
    field_simp
  rw [hdiv, Int.ceil_natCast]
  rw [if_neg (by exact_mod_cast (by omega : ¬ (N : ℤ) ≤ 1))]
  refine ⟨_, _, _, rfl, ?_⟩
  simp [linspace]

theorem boundOneSide_singleton (B : OptimalLinearBounder) (upper : Bool) (fuel : ℕ)
    (lo hi : ℚ) :
    B.boundOneSide upper fuel [(lo, hi)]
      = match samplePoints1 lo hi B.initial_npoints with
        | .error e => .error e
        | .ok (pts, diam, ratio) =>
          if pts.length ≤ 1 then .error .needDimPlusOne
          else
            match engineLoop ⟨B.solver,
                fun x => if upper then B.target_function x else -(B.target_function x),
                fun x => if upper then B.gradient x else -(B.gradient x),
                B.L1, B.L2, B.eps, 1, ratio, lo, hi⟩ fuel
              (pts.map fun p => ⟨p, diam,
                if upper then B.target_function p else -(B.target_function p),
                if upper then B.gradient p else -(B.gradient p)⟩) with
            | none => .ok none
            | some c => .ok (some (if upper then c else (-c.1, -c.2))) := rfl

theorem boundOneSide_singleton_ok (B : OptimalLinearBounder) (upper : Bool)
    (fuel : ℕ) (lo hi : ℚ) (pts : List ℚ) (diam ratio : ℚ)
    (hs : samplePoints1 lo hi B.initial_npoints = .ok (pts, diam, ratio)) :
    B.boundOneSide upper fuel [(lo, hi)]
      = if pts.length ≤ 1 then .error .needDimPlusOne
        else
          match engineLoop ⟨B.solver,
              fun x => if upper then B.target_function x else -(B.target_function x),
              fun x => if upper then B.gradient x else -(B.gradient x),
              B.L1, B.L2, B.eps, 1, ratio, lo, hi⟩ fuel
            (pts.map fun p => ⟨p, diam,
              if upper then B.target_function p else -(B.target_function p),
              if upper then B.gradient p else -(B.gradient p)⟩) with
          | none => .ok none
          | some c => .ok (some (if upper then c else (-c.1, -c.2))) := by
  rw [boundOneSide_singleton, hs]

/-- C7 (amended): under the claim's hypotheses plus a strictly positive slack
reserve `δ` in the solver's contract (the solver over-approximates each
supplied value by at least `δ` less than the allowed `eps`), the
certify-and-subdivide loop of `_bound_one_side` terminates after finitely many
iterations on every nondegenerate one-dimensional region. -/
theorem c7_termination (B : OptimalLinearBounder) (upper : Bool) (lo hi : ℚ) (δ : ℚ)
    (hLip : ∀ x y : ℚ, |B.target_function x - B.target_function y| ≤ B.L1 * |x - y|)
    (hTay : ∀ x y : ℚ, |B.target_function x - B.target_function y
      - B.gradient y * (x - y)| ≤ B.L2 / 2 * (x - y) ^ 2)
    (hEps : 0 < B.eps) (hδ : 0 < δ)
    (hContract : ∀ (pts vals : List ℚ) (i : ℕ) (h1 : i < pts.length) (h2 : i < vals.length),
      vals.get ⟨i, h2⟩ - B.eps + δ
        ≤ (B.solver pts vals B.eps).1 * pts.get ⟨i, h1⟩ + (B.solver pts vals B.eps).2)
    (hlt : lo < hi) (hN : 2 ≤ B.initial_npoints) :
    terminatesOn B upper [(lo, hi)] := by
  obtain ⟨pts, diam, ratio, hs, hlen⟩ :=
    samplePoints1_pos lo hi B.initial_npoints hlt hN
  obtain ⟨c, hc⟩ := engineLoop_of_phi_lt ⟨B.solver,
      fun x => if upper then B.target_function x else -(B.target_function x),
      fun x => if upper then B.gradient x else -(B.gradient x),
      B.L1, B.L2, B.eps, 1, ratio, lo, hi⟩ δ hδ rfl hContract
    (phiMeasure B.L1 δ (pts.map fun p => (⟨p, diam,
      if upper then B.target_function p else -(B.target_function p),
      if upper then B.gradient p else -(B.gradient p)⟩ : Sample)) + 1)
    (pts.map fun p => ⟨p, diam,
      if upper then B.target_function p else -(B.target_function p),
      if upper then B.gradient p else -(B.gradient p)⟩)
    (Nat.lt_succ_self _)
  refine ⟨phiMeasure B.L1 δ (pts.map fun p => (⟨p, diam,
      if upper then B.target_function p else -(B.target_function p),
      if upper then B.gradient p else -(B.gradient p)⟩ : Sample)) + 1,
    if upper then c else (-c.1, -c.2), ?_⟩
  rw [boundOneSide_singleton_ok B upper _ lo hi pts diam ratio hs,
    if_neg (by omega : ¬ pts.length ≤ 1), hc]

theorem foldl_max_zero (l : List ℚ) (h : ∀ v ∈ l, v = 0) : l.foldl max 0 = 0 := by
  induction l with
  | nil => rfl
  | cons x xs ih =>
    have hx : x = 0 := h x (List.mem_cons_self x xs)
    rw [List.foldl_cons, hx, max_self]
    exact ih fun v hv => h v (List.mem_cons_of_mem _ hv)

theorem maxList_zero (l : List ℚ) (h : ∀ v ∈ l, v = 0) : maxList l = 0 := by
  cases l with
  | nil => rfl
  | cons x xs =>
    have hx : x = 0 := h x (List.mem_cons_self x xs)
    show xs.foldl max x = 0
    rw [hx]
    exact foldl_max_zero xs fun v hv => h v (List.mem_cons_of_mem _ hv)

theorem stallLoop_runs_forever (cfg : EngineCfg)
    (hsolv : cfg.solver = stallSolver) (heps : cfg.eps = 1 / 100)
    (hL1 : cfg.L1 = 0) (hL2 : cfg.L2 = 0) (hG : cfg.G = 1)
    (hg : ∀ x : ℚ, cfg.g x = 0) :
    ∀ (fuel : ℕ) (samples : List Sample), samples ≠ [] →
      (∀ s ∈ samples, s.act = 0 ∧ 0 ≤ s.diam) →
      engineLoop cfg fuel samples = none := by
  intro fuel
  induction fuel with
  | zero => intro samples _ _; rfl
  | succ fuel ih =>
    intro samples hne hinv
    have hmax : maxList (samples.map fun s => s.act) = 0 :=
      maxList_zero _ fun v hv => by
        obtain ⟨s, hs, rfl⟩ := List.mem_map.mp hv
        exact (hinv s hs).1
    have hfit : engineFit cfg samples = (0, -(1 / 100)) := by
      simp [engineFit, findDiscreteUpperBound, hsolv, stallSolver, hmax, heps]
    have hcert : ∀ s ∈ samples,
        certified cfg.L1 cfg.L2 cfg.G cfg.eps (engineFit cfg samples) s = false := by
      intro s hs
      obtain ⟨hact, hd⟩ := hinv s hs
      simp only [certified, hfit, margin, boundDiff, hact, hL1, hL2, hG, heps]
      apply decide_eq_false
      rw [not_lt]
      apply le_min
      · nlinarith [hd]
      · have habs : 0 ≤ |(0 : ℚ) - s.grad| * (s.diam / 2) :=
          mul_nonneg (abs_nonneg _) (by linarith)
        nlinarith [habs]
    have hnotall : ¬ ∀ s ∈ samples,
        certified cfg.L1 cfg.L2 cfg.G cfg.eps (engineFit cfg samples) s = true := by
      obtain ⟨s, hs⟩ := List.exists_mem_of_ne_nil samples hne
      intro hall
      have h1 := hall s hs
      have h2 := hcert s hs
      rw [h1] at h2
      cases h2
    have hfq : (samples.filter fun s =>
        !certified cfg.L1 cfg.L2 cfg.G cfg.eps (engineFit cfg samples) s) = samples :=
      List.filter_eq_self.mpr fun a ha => by rw [hcert a ha]; rfl
    have hfp : samples.filter
        (certified cfg.L1 cfg.L2 cfg.G cfg.eps (engineFit cfg samples)) = [] :=
      List.filter_eq_nil_iff.mpr fun a ha => by simp [hcert a ha]
    rw [engineLoop_succ, engineStep_not_all_certified cfg samples hnotall, hfp, hfq,
      List.nil_append]
    apply ih
    · intro hnil
      obtain ⟨h1, h2⟩ := List.append_eq_nil.mp hnil
      rw [List.map_eq_nil_iff] at h1
      exact hne h1
    · intro s hs
      rcases List.mem_append.mp hs with hmem | hmem <;>
        obtain ⟨t, ht, rfl⟩ := List.mem_map.mp hmem <;>
        exact ⟨hg _, by have := (hinv t ht).2; show 0 ≤ t.diam / 2; linarith⟩

/-- C7 witness: `maxB`'s solver (the exact running maximum, with slack
reserve `δ = eps = 1/100`) makes the loop terminate on `[0, 1]`. -/
theorem c7_termination_witness : terminatesOn maxB true [(0, 1)] :=
  c7_termination maxB true 0 1 (1 / 100)
    (by
      intro x y
      show |(0 : ℚ) - 0| ≤ 1 * |x - y|
      simp)
    (by
      intro x y
      show |(0 : ℚ) - 0 - 0 * (x - y)| ≤ 1 / 2 * (x - y) ^ 2
      simp
      positivity)
    (by norm_num [maxB]) (by norm_num)
    (by
      intro pts vals i h1 h2
      show vals.get ⟨i, h2⟩ - 1 / 100 + 1 / 100 ≤ 0 * pts.get ⟨i, h1⟩ + maxList vals
      have := maxList_ge (List.get_mem vals i h2)
      linarith)
    (by norm_num) (by norm_num [maxB])

/-- C7 counterexample: the claim's hypotheses hold — the zero target is
Lipschitz with the finite constants `L1 = L2 = 0`, `eps = 1/100 > 0`, and
`stallSolver` genuinely upper-bounds every supplied value within `eps`
(it answers `max(vals) - eps`, sitting exactly at the allowed slack) — yet
the certify-and-subdivide loop never terminates on `[0, 1]`: every margin
equals `eps` exactly and the certification test `margin < eps` is strict,
so every cell is split at every iteration, forever. -/
theorem c7_counterexample :
    (∀ x y : ℚ, |stallB.target_function x - stallB.target_function y|
      ≤ stallB.L1 * |x - y|) ∧
    (∀ x y : ℚ, |stallB.target_function x - stallB.target_function y
      - stallB.gradient y * (x - y)| ≤ stallB.L2 / 2 * (x - y) ^ 2) ∧
    (0 : ℚ) < stallB.eps ∧
    (∀ (pts vals : List ℚ) (i : ℕ) (h1 : i < pts.length) (h2 : i < vals.length),
      vals.get ⟨i, h2⟩ - stallB.eps
        ≤ (stallB.solver pts vals stallB.eps).1 * pts.get ⟨i, h1⟩
          + (stallB.solver pts vals stallB.eps).2) ∧
    ¬ terminatesOn stallB true [(0, 1)] := by
  refine ⟨?_, ?_, ?_, ?_, ?_⟩
  · intro x y
    show |(0 : ℚ) - 0| ≤ 0 * |x - y|
    simp
  · intro x y
    show |(0 : ℚ) - 0 - 0 * (x - y)| ≤ 0 / 2 * (x - y) ^ 2
    simp
  · norm_num [stallB]
  · intro pts vals i h1 h2
    show vals.get ⟨i, h2⟩ - 1 / 100
      ≤ 0 * pts.get ⟨i, h1⟩ + (maxList vals - 1 / 100)
    have := maxList_ge (List.get_mem vals i h2)
    linarith
  · rintro ⟨fuel, c, hc⟩
    have hs : samplePoints1 0 1 stallB.initial_npoints
        = .ok ([1 / 8, 3 / 8, 5 / 8, 7 / 8], 1 / 4, 1) := by
      with_unfolding_all decide
    rw [boundOneSide_singleton_ok stallB true fuel 0 1 _ _ _ hs] at hc
    rw [if_neg (by norm_num : ¬ ([(1 : ℚ) / 8, 3 / 8, 5 / 8, 7 / 8].length ≤ 1))] at hc
    rw [stallLoop_runs_forever _ rfl rfl rfl rfl rfl (fun x => rfl) fuel _
      (by simp)
      (by
        intro s hsm
        fin_cases hsm <;> exact ⟨rfl, by norm_num⟩)] at hc
    cases hc

/-! ## C8: the general-dimension grid sampler -/

/-- The number of grid points is the product of the per-axis grid sizes. -/
theorem cartProd_length {α : Type} (gs : List (List α)) :
    (cartProd gs).length = (gs.map List.length).prod := by
  induction gs with
  | nil => rfl
  | cons g gs ih =>
    simp [cartProd, List.length_flatMap, ih, Function.comp]
    induction g with
    | nil => simp
    | cons x xs ihx =>
      simp [List.sum_cons, ihx]
      rw [ih]
      ring

/-- A vector is a grid point iff each coordinate comes from its axis grid. -/
theorem cartProd_mem {α : Type} (gs : List (List α)) (p : List α) :
    p ∈ cartProd gs ↔ List.Forall₂ (fun x g => x ∈ g) p gs := by
  induction gs generalizing p with
  | nil =>
    cases p with
    | nil => simp [cartProd]
    | cons x xs => simp [cartProd]
  | cons g gs ih =>
    constructor
    · intro hp
      obtain ⟨x, hx, q, hq, rfl⟩ := by
        simpa [cartProd, List.mem_flatMap, List.mem_map] using hp
      exact List.Forall₂.cons hx ((ih q).mp hq)
    · intro hp
      cases hp with
      | cons hx hq =>
        simp only [cartProd, List.mem_flatMap, List.mem_map]
        exact ⟨_, hx, _, (ih _).mpr hq, rfl⟩

/-- The `np.linspace` call of line 53, from `lo + side/2` to `hi - side/2`
with `k` points where `side · k = hi - lo`, produces exactly the midpoints
`lo + (j + 1/2) · side` of the `k` equal sub-intervals. -/
theorem linspace_midpoints (lo hi side : ℝ) (k : ℕ) (hk : 2 ≤ k)
    (hside : side * (k : ℝ) = hi - lo) :
    linspace (lo + side / 2) (hi - side / 2) k
      = (List.range k).map fun j : ℕ => lo + ((j : ℝ) + 1 / 2) * side := by
  unfold linspace
  refine List.map_congr_left fun j hj => ?_
  have hk1 : ((k : ℕ) : ℝ) - 1 ≠ 0 := by
    have : (2 : ℝ) ≤ (k : ℝ) := by exact_mod_cast hk
    intro h
    nlinarith
  have h1 : (hi - side / 2 - (lo + side / 2)) / ((k : ℝ) - 1) = side := by
    have h2 : hi - side / 2 - (lo + side / 2) = side * ((k : ℝ) - 1) := by
      rw [mul_sub, mul_one, hside]
      ring
    rw [h2, mul_div_assoc, div_self hk1, mul_one]
  rw [h1]
  ring

/-- C8: grid sampler postcondition.  For every region of positive per-axis
widths and target count `N` for which every `k_i = ceil(w_i / s)` with
`s = (V/N)^(1/n)` exceeds 1, `_sample_points_regularly` succeeds (never an
error, even when `Π k_i` exceeds `N`) and returns the Cartesian product of
the per-axis midpoints of the `k_i` equal sub-intervals of each axis —
`Π k_i` centers in total, each center's coordinate on axis `i` being
`lo_i + (j + 1/2) · w_i/k_i` for some `j < k_i` — together with the shared
cell diameter (the Euclidean norm of the axis-side vector `w_i / k_i`) and
the side-to-diameter ratio vector. -/
theorem c8_sampler (bound : List (ℝ × ℝ)) (N : ℕ)
    (hw : ∀ b ∈ bound, b.1 < b.2)
    (hk : ∀ b ∈ bound, 1 < axisCells b (refCellSide bound N)) :
    samplePointsRegularly bound N
      = .ok (cartProd (bound.map fun b =>
            (List.range (axisCells b (refCellSide bound N)).toNat).map fun j : ℕ =>
              b.1 + ((j : ℝ) + 1 / 2) * axisSide b (refCellSide bound N)),
          Real.sqrt ((bound.map fun b => axisSide b (refCellSide bound N) ^ 2).sum),
          bound.map fun b => axisSide b (refCellSide bound N)
            / Real.sqrt ((bound.map fun b => axisSide b (refCellSide bound N) ^ 2).sum)) ∧
    (cartProd (bound.map fun b =>
        (List.range (axisCells b (refCellSide bound N)).toNat).map fun j : ℕ =>
          b.1 + ((j : ℝ) + 1 / 2) * axisSide b (refCellSide bound N))).length
      = (bound.map fun b => (axisCells b (refCellSide bound N)).toNat).prod ∧
    ∀ p : List ℝ,
      p ∈ cartProd (bound.map fun b =>
          (List.range (axisCells b (refCellSide bound N)).toNat).map fun j : ℕ =>
            b.1 + ((j : ℝ) + 1 / 2) * axisSide b (refCellSide bound N))
        ↔ List.Forall₂ (fun (x : ℝ) (b : ℝ × ℝ) =>
            ∃ j : ℕ, j < (axisCells b (refCellSide bound N)).toNat ∧
              x = b.1 + ((j : ℝ) + 1 / 2) * axisSide b (refCellSide bound N)) p bound := by
  have hgrid : ∀ b ∈ bound,
      linspace (b.1 + axisSide b (refCellSide bound N) / 2)
        (b.2 - axisSide b (refCellSide bound N) / 2)
        (axisCells b (refCellSide bound N)).toNat
      = (List.range (axisCells b (refCellSide bound N)).toNat).map fun j : ℕ =>
          b.1 + ((j : ℝ) + 1 / 2) * axisSide b (refCellSide bound N) := by
    intro b hb
    have hk2 : 1 < axisCells b (refCellSide bound N) := hk b hb
    have hc0 : ((axisCells b (refCellSide bound N)) : ℝ) ≠ 0 := by
      exact_mod_cast (by omega : axisCells b (refCellSide bound N) ≠ 0)
    have htoNat : (((axisCells b (refCellSide bound N)).toNat : ℕ) : ℝ)
        = ((axisCells b (refCellSide bound N)) : ℝ) := by
      rw [show (((axisCells b (refCellSide bound N)).toNat : ℕ) : ℝ)
          = (((axisCells b (refCellSide bound N)).toNat : ℤ) : ℝ) by push_cast; ring,
        Int.toNat_of_nonneg (by omega)]
    apply linspace_midpoints
    · omega
    · show (b.2 - b.1) / ((axisCells b (refCellSide bound N)) : ℝ) * _ = b.2 - b.1
      rw [htoNat, div_mul_cancel₀ _ hc0]
  have hcond : ((bound.map fun b => axisCells b (refCellSide bound N)).all
      fun k => 1 < k) = true := by
    apply List.all_eq_true.mpr
    intro k hkm
    obtain ⟨b, hb, rfl⟩ := List.mem_map.mp hkm
    exact decide_eq_true (hk b hb)
  refine ⟨?_, ?_, ?_⟩
  · simp only [samplePointsRegularly]
    rw [if_pos hcond, List.map_congr_left hgrid, List.map_map, List.map_map]
    rfl
  · rw [cartProd_length, List.map_map]
    refine congrArg List.prod (List.map_congr_left fun b hb => ?_)
    simp
  · intro p
    rw [cartProd_mem, List.forall₂_map_right_iff]
    constructor
    · refine List.Forall₂.imp fun x b hx => ?_
      obtain ⟨j, hj, rfl⟩ := List.mem_map.mp hx
      exact ⟨j, List.mem_range.mp hj, rfl⟩
    · refine List.Forall₂.imp fun x b hx => ?_
      obtain ⟨j, hj, rfl⟩ := hx
      exact List.mem_map.mpr ⟨j, List.mem_range.mpr hj, rfl⟩

/-- C8 witness: on the region `[0, 4]` with `N = 4`, the reference side is
`(4/4)^(1/1) = 1`, the axis is cut into 4 cells of side 1, and the sampler
returns the four cell midpoints with diameter `√(1²) = 1` and ratio `[1]`. -/
theorem c8_sampler_witness :
    (∀ b ∈ [((0 : ℝ), 4)], b.1 < b.2) ∧
    (∀ b ∈ [((0 : ℝ), 4)], 1 < axisCells b (refCellSide [((0 : ℝ), 4)] 4)) ∧
    samplePointsRegularly [((0 : ℝ), 4)] 4
      = .ok ([[1 / 2], [3 / 2], [5 / 2], [7 / 2]], 1, [1]) := by
  have hs1 : refCellSide [((0 : ℝ), 4)] 4 = 1 := by
    unfold refCellSide
    norm_num
  have hcells : axisCells ((0 : ℝ), 4) (refCellSide [((0 : ℝ), 4)] 4) = 4 := by
    unfold axisCells
    rw [hs1]
    norm_num
  have hside : axisSide ((0 : ℝ), 4) (refCellSide [((0 : ℝ), 4)] 4) = 1 := by
    unfold axisSide
    rw [hcells]
    norm_num
  have h1 : ∀ b ∈ [((0 : ℝ), 4)], b.1 < b.2 := by
    intro b hb
    simp only [List.mem_singleton] at hb
    rw [hb]
    norm_num
  have h2 : ∀ b ∈ [((0 : ℝ), 4)], 1 < axisCells b (refCellSide [((0 : ℝ), 4)] 4) := by
    intro b hb
    simp only [List.mem_singleton] at hb
    rw [hb, hcells]
    norm_num
  obtain ⟨hok, hlen, hmem⟩ := c8_sampler [((0 : ℝ), 4)] 4 h1 h2
  refine ⟨h1, h2, ?_⟩
  rw [hok]
  simp only [List.map_cons, List.map_nil, hcells, hside]
  norm_num [cartProd, List.range_succ, Real.sqrt_one, Int.toNat_ofNat,
    List.flatMap_cons, List.flatMap_nil]
  rw [show Int.toNat 4 = 4 from rfl, show List.range 4 = [0, 1, 2, 3] from rfl]
  norm_num
